import Mathlib

/-!
Verification development for `nxo64.py`, a loader/parser for Nintendo Switch
executable containers (NSO/NRO/KIP).  The Python source is shallowly embedded:
pure functions become Lean functions over `List Nat` byte buffers, Python
exceptions (`assert`, `struct.error`, `IndexError`, ...) become
`Option`/`Except` error results, and Python integer arithmetic is modelled
with `Nat`/`Int` (Python integers are unbounded).  Loops whose termination is
not structural use an explicit iteration budget that provably exceeds the
number of iterations the Python loop can perform, so that results agree on
every input the Python code handles.
-/

deriving instance DecidableEq for Except

/- ## Byte-level reading utilities (embedding of `BinFile` reads)

`BinFile.read` uses `struct.unpack` on little-endian fields; a read past the
end of the buffer raises (`struct.error`), modelled as `Except.error`. -/

def leNat : List Nat → Nat
  | [] => 0
  | b :: rest => b + 256 * leNat rest

def readBytes (buf : List Nat) (off n : Nat) : Except String (List Nat) :=
  if off + n ≤ buf.length then Except.ok ((buf.drop off).take n)
  else Except.error "Truncated"

def readLE (buf : List Nat) (off w : Nat) : Except String Nat :=
  (readBytes buf off w).map leNat

def toSigned (w v : Nat) : Int :=
  if v < 2 ^ (8 * w - 1) then (v : Int) else (v : Int) - 2 ^ (8 * w)

def readI32 (buf : List Nat) (off : Nat) : Except String Int :=
  (readLE buf off 4).map (toSigned 4)

def encodeLE : Nat → Nat → List Nat
  | 0, _ => []
  | w + 1, v => v % 256 :: encodeLE w (v / 256)

/- ## Interval / layout model (`Range`, `Section`, `Segment`, `SegmentBuilder`)

Faithful to the Python classes: `Range` stores `start`/`size` with an
inclusive end `_inclend = start + size - 1`; `overlaps` and `includes` use
the inclusive-end comparisons.  Failed `assert`s are modelled by `none`. -/

structure Range where
  start : Int
  size : Int
deriving DecidableEq, Repr

def Range.end_ (r : Range) : Int := r.start + r.size

def Range.inclend (r : Range) : Int := r.start + r.size - 1

def Range.overlaps (a b : Range) : Bool :=
  decide (a.start ≤ b.inclend) && decide (b.start ≤ a.inclend)

def Range.includes (a b : Range) : Bool :=
  decide (b.start ≥ a.start) && decide (b.inclend ≤ a.inclend)

structure Section where
  range : Range
  name : String
deriving DecidableEq, Repr

structure Segment where
  range : Range
  name : String
  kind : String
  sections : List Section
deriving DecidableEq, Repr

def Segment.add_section (seg : Segment) (s : Section) : Option Segment :=
  if seg.sections.all (fun i => !(i.range.overlaps s.range)) then
    some { seg with sections := seg.sections ++ [s] }
  else none

structure SegmentBuilder where
  segments : List Segment
deriving DecidableEq, Repr

def SegmentBuilder.add_segment (b : SegmentBuilder) (start size : Int)
    (name kind : String) : Option SegmentBuilder :=
  let r : Range := ⟨start, size⟩
  if b.segments.all (fun i => !(r.overlaps i.range)) then
    some ⟨b.segments ++ [⟨r, name, kind, []⟩]⟩
  else none

def addSectionAux (s : Section) : List Segment → Option (List Segment)
  | [] => none
  | seg :: rest =>
    if seg.range.includes s.range then (seg.add_section s).map (· :: rest)
    else (addSectionAux s rest).map (seg :: ·)

def SegmentBuilder.add_section (b : SegmentBuilder) (name : String)
    (start size : Int) : Option SegmentBuilder :=
  if size > 0 then (addSectionAux ⟨⟨start, size⟩, name⟩ b.segments).map SegmentBuilder.mk
  else none

def suffixed_name (name : String) (suffix : Nat) : String :=
  if suffix = 0 then name else name ++ "." ++ toString suffix

/- Python `list.sort(key=...)` is a stable ascending sort; embedded as a
stable insertion sort. -/

def insertLe (le : α → α → Bool) (x : α) : List α → List α
  | [] => [x]
  | y :: ys => if le x y then x :: y :: ys else y :: insertLe le x ys

def sortLe (le : α → α → Bool) : List α → List α
  | [] => []
  | x :: xs => insertLe le x (sortLe le xs)

/- ## `SegmentBuilder.flatten`

Direct embedding of the Python `flatten` loop: segments sorted by start,
sections within each segment sorted by start, a filler part for every gap,
suffix counter incremented per filler. -/

structure FlatPart where
  start : Int
  end_ : Int
  name : String
  kind : String
deriving DecidableEq, Repr

def segSortLe (a b : Segment) : Bool := decide (a.range.start ≤ b.range.start)

def secSortLe (a b : Section) : Bool := decide (a.range.start ≤ b.range.start)

def emitParts (name kind : String) (segEnd : Int) :
    Int → Nat → List Section → List FlatPart
  | pos, suffix, [] =>
    if pos < segEnd then [⟨pos, segEnd, suffixed_name name suffix, kind⟩] else []
  | pos, suffix, s :: rest =>
    if pos < s.range.start then
      ⟨pos, s.range.start, suffixed_name name suffix, kind⟩ ::
        ⟨s.range.start, s.range.end_, s.name, kind⟩ ::
          emitParts name kind segEnd s.range.end_ (suffix + 1) rest
    else
      ⟨s.range.start, s.range.end_, s.name, kind⟩ ::
        emitParts name kind segEnd s.range.end_ suffix rest

def Segment.flattenParts (seg : Segment) : List FlatPart :=
  emitParts seg.name seg.kind seg.range.end_ seg.range.start 0
    (sortLe secSortLe seg.sections)

def SegmentBuilder.flatten (b : SegmentBuilder) : List FlatPart :=
  ((sortLe segSortLe b.segments).map Segment.flattenParts).flatten

/-- `IsTiling lo hi parts`: the parts are consecutive, positive-length,
adjacent intervals starting at `lo` and staying within `hi`; an empty part
list is allowed only for an empty interval.  This is the shape the per-segment
emission loop of `flatten` produces. -/
def IsTiling : Int → Int → List FlatPart → Prop
  | lo, hi, [] => hi ≤ lo
  | lo, hi, p :: ps => p.start = lo ∧ lo < p.end_ ∧ p.end_ ≤ hi ∧ IsTiling p.end_ hi ps

/- ## Symbol model (`ElfSym`) and symbol-table parsing

`ElfSym.__init__` unpacks visibility/type/binding bitfields.  Symbol names
are byte strings (`dynstr` slices).  The `.dynsym` read loop of
`NxoFileBase.__init__` reads fixed-width records until either the cursor
reaches the string table (when it follows the symbol table) or a record's
name offset exceeds the string table length.  The loop advances the cursor
by a full record per iteration and every iteration that recurses has read a
record inside the buffer, so `buf.length + 1` iterations always suffice. -/

structure ElfSym where
  name : List Nat
  shndx : Nat
  value : Nat
  size : Nat
  vis : Nat
  type : Nat
  bind : Nat
deriving DecidableEq, Repr

def ElfSym.make (name : List Nat) (info other shndx value size : Nat) : ElfSym :=
  ⟨name, shndx, value, size, other % 4, info % 16, info / 16⟩

/-- `get_dynstr`: `dynstr[o : dynstr.index(chr(0), o)]`; raises when there is
no NUL byte at or after `o`. -/
def get_dynstr (dynstr : List Nat) (o : Nat) : Except String (List Nat) :=
  match (dynstr.drop o).findIdx? (fun b => b == 0) with
  | some i => Except.ok ((dynstr.drop o).take i)
  | none => Except.error "ValueError: substring not found"

/-- Record decoding, normalized to `(name, info, other, shndx, value, size)`:
armv7 unpacks `IIIBBH` as (name, value, size, info, other, shndx); 64-bit
unpacks `IBBHQQ` as (name, info, other, shndx, value, size). -/
def decodeSym (armv7 : Bool) (bytes : List Nat) : Nat × Nat × Nat × Nat × Nat × Nat :=
  if armv7 then
    (leNat (bytes.take 4), leNat ((bytes.drop 12).take 1),
      leNat ((bytes.drop 13).take 1), leNat ((bytes.drop 14).take 2),
      leNat ((bytes.drop 4).take 4), leNat ((bytes.drop 8).take 4))
  else
    (leNat (bytes.take 4), leNat ((bytes.drop 4).take 1),
      leNat ((bytes.drop 5).take 1), leNat ((bytes.drop 6).take 2),
      leNat ((bytes.drop 8).take 8), leNat ((bytes.drop 16).take 8))

def symRecSize (armv7 : Bool) : Nat := if armv7 then 16 else 24

def parseSymtabLoop (buf dynstr : List Nat) (armv7 : Bool)
    (symtaboff strtaboff : Nat) :
    Nat → Nat → List ElfSym → Except String (List ElfSym × Nat)
  | 0, _, _ => Except.error "iteration budget exhausted"
  | fuel + 1, pos, acc =>
    if symtaboff < strtaboff ∧ strtaboff ≤ pos then Except.ok (acc, pos)
    else
      let rsz := symRecSize armv7
      match readBytes buf pos rsz with
      | Except.error e => Except.error e
      | Except.ok bytes =>
        let (st_name, st_info, st_other, st_shndx, st_value, st_size) :=
          decodeSym armv7 bytes
        if st_name > dynstr.length then Except.ok (acc, pos + rsz)
        else
          match get_dynstr dynstr st_name with
          | Except.error e => Except.error e
          | Except.ok nm =>
            parseSymtabLoop buf dynstr armv7 symtaboff strtaboff fuel (pos + rsz)
              (acc ++ [ElfSym.make nm st_info st_other st_shndx st_value st_size])

def parseSymtab (buf dynstr : List Nat) (armv7 : Bool)
    (symtaboff strtaboff : Nat) : Except String (List ElfSym × Nat) :=
  parseSymtabLoop buf dynstr armv7 symtaboff strtaboff (buf.length + 1) symtaboff []

/- ## Dynamic table parsing

The read loop runs for `(flatsize - dynamicoff) / 0x10` iterations (note:
`0x10` regardless of the detected width), reading a `(tag, value)` pair of
the detected width each time, stopping early at a null tag.  `DT_NEEDED = 1`
accumulates into an ordered list (`MULTIPLE_DTS`); every other tag is a dict
assignment, i.e. last write wins.  The dict is modelled as an assoc list
where the most recent write is consed on and lookup takes the first hit. -/

structure DynResult where
  needed : List Nat
  table : List (Nat × Nat)
deriving DecidableEq, Repr

def dtUpdate (m : List (Nat × Nat)) (tag v : Nat) : List (Nat × Nat) :=
  (tag, v) :: m

def dtLookup (m : List (Nat × Nat)) (tag : Nat) : Option Nat :=
  (m.find? (fun p => p.1 == tag)).map (·.2)

def dynWidth (armv7 : Bool) : Nat := if armv7 then 4 else 8

def parseDynamicLoop (buf : List Nat) (armv7 : Bool) :
    Nat → Nat → DynResult → Except String (DynResult × Nat)
  | 0, pos, acc => Except.ok (acc, pos)
  | count + 1, pos, acc =>
    let w := dynWidth armv7
    match readLE buf pos w, readLE buf (pos + w) w with
    | Except.ok tag, Except.ok val =>
      if tag = 0 then Except.ok (acc, pos + 2 * w)
      else if tag = 1 then
        parseDynamicLoop buf armv7 count (pos + 2 * w) ⟨acc.needed ++ [val], acc.table⟩
      else
        parseDynamicLoop buf armv7 count (pos + 2 * w) ⟨acc.needed, dtUpdate acc.table tag val⟩
    | Except.error e, _ => Except.error e
    | _, Except.error e => Except.error e

def parseDynamic (buf : List Nat) (dynamicoff flatsize : Nat) (armv7 : Bool) :
    Except String (DynResult × Nat) :=
  parseDynamicLoop buf armv7 ((flatsize - dynamicoff) / 0x10) dynamicoff ⟨[], []⟩

/-- One abstract dynamic-table step: `DT_NEEDED` (tag 1) appends to the
ordered needed list, any other non-null tag overwrites its dict slot. -/
def dynStep (acc : DynResult) (e : Nat × Nat) : DynResult :=
  if e.1 = 1 then ⟨acc.needed ++ [e.2], acc.table⟩
  else ⟨acc.needed, dtUpdate acc.table e.1 e.2⟩

def encodePair (w : Nat) (e : Nat × Nat) : List Nat :=
  encodeLE w e.1 ++ encodeLE w e.2

def encodeTable (w : Nat) (es : List (Nat × Nat)) : List Nat :=
  (es.map (encodePair w)).flatten

/- ## Pointer-width detection

`self.armv7 = (f.read_from('Q', dynamicoff) > 0xFFFFFFFF or
               f.read_from('Q', dynamicoff+0x10) > 0xFFFFFFFF)`;
`or` is short-circuiting, so the second read only happens when the first
word is small. -/

def detect_armv7 (buf : List Nat) (dynamicoff : Nat) : Except String Bool :=
  match readLE buf dynamicoff 8 with
  | Except.error e => Except.error e
  | Except.ok a =>
    if a > 0xFFFFFFFF then Except.ok true
    else
      match readLE buf (dynamicoff + 0x10) 8 with
      | Except.error e => Except.error e
      | Except.ok b => Except.ok (decide (b > 0xFFFFFFFF))

/-- Modelled from the spec (claim C7 wording): detection inspects "the first
two 8-byte little-endian words at the dynamic-table offset", i.e. the words
at `dynamicoff` and `dynamicoff + 8`.  Used only to compare against the
source's `detect_armv7`, which reads at `dynamicoff` and `dynamicoff + 0x10`. -/
def claimDetectWidth (buf : List Nat) (dynamicoff : Nat) : Except String Bool :=
  match readLE buf dynamicoff 8 with
  | Except.error e => Except.error e
  | Except.ok a =>
    if a > 0xFFFFFFFF then Except.ok true
    else
      match readLE buf (dynamicoff + 8) 8 with
      | Except.error e => Except.error e
      | Except.ok b => Except.ok (decide (b > 0xFFFFFFFF))

/- ## Exception-unwind-table phase (64-bit only)

Embedding of the `.eh_frame` recovery block of `NxoFileBase.__init__`:
read four encoding bytes at `unwindoff`; if any of the three non-version
bytes is `0xff` (DW_EH_PE_omit), or they are not exactly
`(0x1B, 0x03, 0x3B)`, the whole block is skipped (empty table, no section).
Otherwise read a relative `eh_frame` pointer and an entry count; the entry
list is filled only when `8 * fde_count` equals the space left up to
`unwindend`; afterwards the code unconditionally takes
`sorted(eh_table, key=lambda x: x[1])[-1][1]`, which raises `IndexError`
on an empty table. -/

def ehSortLe (a b : Int × Int) : Bool := decide (a.2 ≤ b.2)

def readEhEntries (buf : List Nat) (unwindoff : Nat) :
    Nat → Nat → Except String (List (Int × Int))
  | _, 0 => Except.ok []
  | pos, n + 1 =>
    match readI32 buf pos, readI32 buf (pos + 4) with
    | Except.ok pc, Except.ok ent =>
      (readEhEntries buf unwindoff (pos + 8) n).map
        (((unwindoff : Int) + pc, (unwindoff : Int) + ent) :: ·)
    | Except.error e, _ => Except.error e
    | _, Except.error e => Except.error e

def ehPhase (buf : List Nat) (unwindoff unwindend : Nat) :
    Except String (List (Int × Int) × Option (Int × Int)) :=
  match readBytes buf unwindoff 4 with
  | Except.error e => Except.error e
  | Except.ok hdr =>
    let eh_frame_ptr_enc := hdr.getD 1 0
    let fde_count_enc := hdr.getD 2 0
    let table_enc := hdr.getD 3 0
    if eh_frame_ptr_enc = 0xff ∨ fde_count_enc = 0xff ∨ table_enc = 0xff then
      Except.ok ([], none)
    else if eh_frame_ptr_enc = 0x1B ∧ fde_count_enc = 0x03 ∧ table_enc = 0x3B then
      match readI32 buf (unwindoff + 4) with
      | Except.error e => Except.error e
      | Except.ok rel =>
        let eh_frame : Int := (unwindoff : Int) + 4 + rel
        match readLE buf (unwindoff + 8) 4 with
        | Except.error e => Except.error e
        | Except.ok fde_count =>
          match (if 8 * (fde_count : Int) = (unwindend : Int) - ((unwindoff : Int) + 12)
                  then readEhEntries buf unwindoff (unwindoff + 12) fde_count
                  else Except.ok []) with
          | Except.error e => Except.error e
          | Except.ok tbl =>
            match (sortLe ehSortLe tbl).getLast? with
            | none => Except.error "list index out of range"
            | some lastp => Except.ok (tbl, some (eh_frame, lastp.2))
    else Except.ok ([], none)

/-- Modelled from the spec (claim C6 wording): "the second-largest entry's
unwind-info offset", i.e. the second to last element after sorting by
unwind-info offset.  Used only to compare against the source behavior. -/
def specSecondLargestInfo (tbl : List (Int × Int)) : Option Int :=
  ((sortLe ehSortLe tbl).dropLast.getLast?).map (·.2)

/- ## PLT lookup cache (`NxoFileBase.plt_lookup`)

Relocations are `(offset, r_type, sym, addend)` tuples; `sym` is `None` when
the symbol index is 0, and armv7 relocations carry `addend = None`.
In Python, `None == 0` is `False`, and `sym.shndx` on `None` raises
`AttributeError`; both behaviors are preserved.
Type codes: `R_AARCH64_GLOB_DAT = 1025`, `R_AARCH64_JUMP_SLOT = 1026`,
`R_AARCH64_ABS64 = 257`. -/

structure Reloc where
  offset : Nat
  r_type : Nat
  sym : Option ElfSym
  addend : Option Int
deriving DecidableEq, Repr

def buildGotValueLookup : List Reloc → List (Nat × Nat) →
    Except String (List (Nat × Nat))
  | [], acc => Except.ok acc
  | r :: rest, acc =>
    if r.r_type = 1025 ∨ r.r_type = 1026 ∨ r.r_type = 257 then
      if r.addend = some 0 then
        match r.sym with
        | none => Except.error "AttributeError"
        | some s =>
          if s.shndx ≠ 0 then buildGotValueLookup rest (dtUpdate acc r.offset s.value)
          else buildGotValueLookup rest acc
      else buildGotValueLookup rest acc
    else buildGotValueLookup rest acc

def plt_lookup (relocations : List Reloc) (plt_entries : List (Nat × Nat)) :
    Except String (List (Nat × Nat)) :=
  match buildGotValueLookup relocations [] with
  | Except.error e => Except.error e
  | Except.ok got =>
    Except.ok (plt_entries.foldl
      (fun cache fe =>
        match dtLookup got fe.2 with
        | some v => dtUpdate cache fe.1 v
        | none => cache) [])

/-- A relocation that contributes to `got_value_lookup`: AArch64
GLOB_DAT/JUMP_SLOT/ABS64 type, zero addend, a present symbol with nonzero
section index. -/
def relocQualifies (r : Reloc) : Bool :=
  (decide (r.r_type = 1025) || decide (r.r_type = 1026) || decide (r.r_type = 257)) &&
    decide (r.addend = some 0) &&
    (match r.sym with
     | some s => decide (s.shndx ≠ 0)
     | none => false)

def relocValue (r : Reloc) : Nat :=
  match r.sym with
  | some s => s.value
  | none => 0

/- ## `kip1_blz_decompress`

The custom backward back-reference decompressor.  `compressed` and
`decompressed` are Python lists indexed by Python semantics: a negative
index in `[-len, -1]` silently wraps to `len + i` (`pyGet`); an index
outside `[-len, len)` raises `IndexError`.  The input cursor `index` is a
Python int and may go negative; the output cursor `outindex` is only ever
decremented after a `>= 1` (or `>= segmentsize`) check, so it stays
non-negative and is modelled as `Nat`.  Each executed bit iteration strictly
decreases `outindex`, and the outer loop only runs while `outindex > 0`, so
`dsize + 1` outer iterations always suffice. -/

def pyGet (l : List Nat) (i : Int) : Except String Nat :=
  let j := if i < 0 then (l.length : Int) + i else i
  if 0 ≤ j ∧ j < (l.length : Int) then Except.ok (l.getD j.toNat 0)
  else Except.error "IndexError: list index out of range"

/-- Modelled from the spec (claim C3 wording): an input-cursor access that
would go below zero "fails with a corruption error rather than wrapping".
Used only to compare against the source's wrapping `pyGet`. -/
def pyGetStrict (l : List Nat) (i : Int) : Except String Nat :=
  if i < 0 then Except.error "Compression out of bounds!" else pyGet l i

/-- The back-reference copy loop: `segmentsize` bytes copied one at a time,
scanning backward; reads are bounds-checked against the end of the output
buffer, and the caller has checked `outindex >= segmentsize` so the write
cursor stays non-negative. -/
def blzCopy (dsize segmentoffset : Nat) :
    Nat → Nat → List Nat → Except String (Nat × List Nat)
  | 0, outindex, dec => Except.ok (outindex, dec)
  | j + 1, outindex, dec =>
    if outindex + segmentoffset ≥ dsize then Except.error "Compression out of bounds!"
    else
      let data := dec.getD (outindex + segmentoffset) 0
      blzCopy dsize segmentoffset j (outindex - 1) (dec.set (outindex - 1) data)

/-- The per-control-byte loop (8 bits, most significant first); `pyread` is
the possibly-wrapping element access used for the unchecked reads
(`compressed[index]` for control and literal bytes). -/
def blzInner (compressed : List Nat) (dsize : Nat)
    (pyread : List Nat → Int → Except String Nat) :
    Nat → Nat → Nat → Int → List Nat → Except String (Nat × Int × List Nat)
  | 0, _, outindex, index, dec => Except.ok (outindex, index, dec)
  | bits + 1, control, outindex, index, dec =>
    if control &&& 0x80 ≠ 0 then
      if index < 2 then Except.error "Compression out of bounds!"
      else
        let index2 := index - 2
        match pyread compressed index2, pyread compressed (index2 + 1) with
        | Except.ok b0, Except.ok b1 =>
          let seg0 := b0 ||| (b1 <<< 8)
          let segmentsize := ((seg0 >>> 12) &&& 0xF) + 3
          let segmentoffset := (seg0 &&& 0x0FFF) + 2
          if outindex < segmentsize then Except.error "Compression out of bounds!"
          else
            match blzCopy dsize segmentoffset segmentsize outindex dec with
            | Except.error e => Except.error e
            | Except.ok (outindex2, dec2) =>
              if outindex2 = 0 then Except.ok (outindex2, index2, dec2)
              else blzInner compressed dsize pyread bits ((control <<< 1) &&& 0xFF)
                outindex2 index2 dec2
        | Except.error e, _ => Except.error e
        | _, Except.error e => Except.error e
    else
      if outindex < 1 then Except.error "Compression out of bounds!"
      else
        let outindex2 := outindex - 1
        let index2 := index - 1
        match pyread compressed index2 with
        | Except.error e => Except.error e
        | Except.ok byte =>
          let dec2 := dec.set outindex2 byte
          if outindex2 = 0 then Except.ok (outindex2, index2, dec2)
          else blzInner compressed dsize pyread bits ((control <<< 1) &&& 0xFF)
            outindex2 index2 dec2

def blzOuter (compressed : List Nat) (dsize : Nat)
    (pyread : List Nat → Int → Except String Nat) :
    Nat → Nat → Int → List Nat → Except String (List Nat)
  | 0, _, _, _ => Except.error "iteration budget exhausted"
  | fuel + 1, outindex, index, dec =>
    if outindex = 0 then Except.ok dec
    else
      let index2 := index - 1
      match pyread compressed index2 with
      | Except.error e => Except.error e
      | Except.ok control =>
        match blzInner compressed dsize pyread 8 control outindex index2 dec with
        | Except.error e => Except.error e
        | Except.ok (outindex2, index3, dec2) =>
          blzOuter compressed dsize pyread fuel outindex2 index3 dec2

def blzTrailer (compressed : List Nat) : Nat × Nat × Nat :=
  let trailer := compressed.drop (compressed.length - 12)
  (leNat (trailer.take 4), leNat ((trailer.drop 4).take 4), leNat (trailer.drop 8))

def kip1_blz_core (pyread : List Nat → Int → Except String Nat)
    (compressed : List Nat) : Except String (List Nat) :=
  if compressed.length < 12 then Except.error "struct.error"
  else
    let (compressed_size, init_index, uncompressed_addl_size) := blzTrailer compressed
    let dec := compressed ++ List.replicate uncompressed_addl_size 0
    let dsize := dec.length
    if compressed_size + uncompressed_addl_size = 0 then Except.ok []
    else
      blzOuter compressed dsize pyread (dsize + 1) dsize
        ((compressed_size : Int) - (init_index : Int)) dec

def kip1_blz_decompress (compressed : List Nat) : Except String (List Nat) :=
  kip1_blz_core pyGet compressed

/-- Modelled from the spec (claim C3 wording): the same decoder, but every
input-cursor access that would go below zero fails with a corruption error
instead of wrapping. -/
def kip1_blz_decompressChecked (compressed : List Nat) : Except String (List Nat) :=
  kip1_blz_core pyGetStrict compressed

/- ## Spec-side record accessors used to state the symbol-table claim -/

/-- The raw bytes of symbol record `i` (records are laid out back to back
from the symbol-table offset). -/
def symRecordBytes (buf : List Nat) (armv7 : Bool) (off i : Nat) : List Nat :=
  (buf.drop (off + i * symRecSize armv7)).take (symRecSize armv7)

/-- The name offset field of symbol record `i`. -/
def symNameAt (buf : List Nat) (armv7 : Bool) (off i : Nat) : Nat :=
  (decodeSym armv7 (symRecordBytes buf armv7 off i)).1

/-- Symbol record `i` decoded and its name resolved against `dynstr`. -/
def symRecord (buf dynstr : List Nat) (armv7 : Bool) (off i : Nat) :
    Except String ElfSym :=
  match decodeSym armv7 (symRecordBytes buf armv7 off i) with
  | (st_name, st_info, st_other, st_shndx, st_value, st_size) =>
    (get_dynstr dynstr st_name).map
      (fun nm => ElfSym.make nm st_info st_other st_shndx st_value st_size)

/-! ## Theorems -/

theorem encodeLE_length (w v : Nat) : (encodeLE w v).length = w := by
  induction w generalizing v with
  | zero => rfl
  | succ w ih => simp [encodeLE, ih]

theorem leNat_encodeLE (w v : Nat) (h : v < 256 ^ w) : leNat (encodeLE w v) = v := by
  induction w generalizing v with
  | zero => simp [pow_zero] at h; simp [encodeLE, leNat, h]
  | succ w ih =>
    have hdiv : v / 256 < 256 ^ w := by
      rw [Nat.div_lt_iff_lt_mul (by norm_num)]
      calc v < 256 ^ (w + 1) := h
        _ = 256 ^ w * 256 := by ring
    simp [encodeLE, leNat, ih _ hdiv]
    omega

theorem readBytes_ok_length {buf : List Nat} {off n : Nat} {out : List Nat}
    (h : readBytes buf off n = Except.ok out) : off + n ≤ buf.length := by
  unfold readBytes at h
  by_cases hle : off + n ≤ buf.length
  · exact hle
  · simp [hle] at h

theorem insertLe_perm (le : α → α → Bool) (x : α) (l : List α) :
    (insertLe le x l).Perm (x :: l) := by
  induction l with
  | nil => simp [insertLe]
  | cons y ys ih =>
    unfold insertLe
    by_cases h : le x y = true
    · simp [h]
    · simp only [h]
      simp only [Bool.false_eq_true, if_false]
      exact (List.Perm.cons y ih).trans (List.Perm.swap x y ys)

theorem sortLe_perm (le : α → α → Bool) (l : List α) : (sortLe le l).Perm l := by
  induction l with
  | nil => simp [sortLe]
  | cons x xs ih =>
    unfold sortLe
    exact (insertLe_perm le x (sortLe le xs)).trans (List.Perm.cons x ih)

theorem insertLe_pairwise (le : α → α → Bool)
    (htot : ∀ a b, le a b = true ∨ le b a = true)
    (htrans : ∀ a b c, le a b = true → le b c = true → le a c = true)
    (x : α) (l : List α) (hl : l.Pairwise (fun a b => le a b = true)) :
    (insertLe le x l).Pairwise (fun a b => le a b = true) := by
  induction l with
  | nil => simp [insertLe]
  | cons y ys ih =>
    rcases hl with _ | ⟨hy, hys⟩
    unfold insertLe
    by_cases h : le x y = true
    · simp only [h, if_true]
      refine List.Pairwise.cons ?_ (List.Pairwise.cons hy hys)
      intro b hb
      rcases List.mem_cons.mp hb with rfl | hb'
      · exact h
      · exact htrans _ _ _ h (hy b hb')
    · simp only [h]
      simp only [Bool.false_eq_true, if_false]
      have hyx : le y x = true := (htot x y).resolve_left h
      refine List.Pairwise.cons ?_ (ih hys)
      intro b hb
      have hmem := (insertLe_perm le x ys).mem_iff.mp hb
      rcases List.mem_cons.mp hmem with rfl | hb'
      · exact hyx
      · exact hy b hb'

theorem sortLe_pairwise (le : α → α → Bool)
    (htot : ∀ a b, le a b = true ∨ le b a = true)
    (htrans : ∀ a b c, le a b = true → le b c = true → le a c = true)
    (l : List α) : (sortLe le l).Pairwise (fun a b => le a b = true) := by
  induction l with
  | nil => simp [sortLe]
  | cons x xs ih => exact insertLe_pairwise le htot htrans x _ ih

theorem segSortLe_total : ∀ a b : Segment, segSortLe a b = true ∨ segSortLe b a = true := by
  intro a b
  unfold segSortLe
  rcases le_total a.range.start b.range.start with h | h
  · exact Or.inl (decide_eq_true h)
  · exact Or.inr (decide_eq_true h)

theorem segSortLe_trans : ∀ a b c : Segment,
    segSortLe a b = true → segSortLe b c = true → segSortLe a c = true := by
  intro a b c hab hbc
  simp only [segSortLe, decide_eq_true_eq] at *
  omega

theorem secSortLe_total : ∀ a b : Section, secSortLe a b = true ∨ secSortLe b a = true := by
  intro a b
  unfold secSortLe
  rcases le_total a.range.start b.range.start with h | h
  · exact Or.inl (decide_eq_true h)
  · exact Or.inr (decide_eq_true h)

theorem secSortLe_trans : ∀ a b c : Section,
    secSortLe a b = true → secSortLe b c = true → secSortLe a c = true := by
  intro a b c hab hbc
  simp only [secSortLe, decide_eq_true_eq] at *
  omega

theorem Range.overlaps_comm (a b : Range) : a.overlaps b = b.overlaps a := by
  unfold Range.overlaps
  rw [Bool.and_comm]

/-- Sorted-by-start plus non-overlapping plus a positive second size means
the first interval ends before the second starts. -/
theorem sep_of_le_nonoverlap {a b : Range} (hle : a.start ≤ b.start)
    (hno : a.overlaps b = false) (hb : 0 < b.size) : a.end_ ≤ b.start := by
  simp only [Range.overlaps, Range.inclend, Bool.and_eq_false_iff,
    decide_eq_false_iff_not, not_le] at hno
  unfold Range.end_
  omega

theorem includes_bounds {a b : Range} (h : a.includes b = true) :
    a.start ≤ b.start ∧ b.end_ ≤ a.end_ := by
  simp only [Range.includes, Bool.and_eq_true, decide_eq_true_eq, ge_iff_le,
    Range.inclend] at h
  unfold Range.end_
  omega

theorem pairwise_combine {R S T : α → α → Prop} {P : α → Prop} :
    ∀ {l : List α}, l.Pairwise R → l.Pairwise S → (∀ x ∈ l, P x) →
      (∀ a b, P a → P b → R a b → S a b → T a b) → l.Pairwise T := by
  intro l hR hS hP himp
  induction l with
  | nil => exact List.Pairwise.nil
  | cons x xs ih =>
    obtain ⟨hRx, hR'⟩ := List.pairwise_cons.mp hR
    obtain ⟨hSx, hS'⟩ := List.pairwise_cons.mp hS
    refine List.Pairwise.cons ?_ (ih hR' hS' (fun y hy => hP y (List.mem_cons_of_mem _ hy)))
    intro b hb
    exact himp _ _ (hP x (List.mem_cons_self _ _)) (hP b (List.mem_cons_of_mem _ hb))
      (hRx b hb) (hSx b hb)

theorem tiling_bounds {lo hi : Int} {ps : List FlatPart} (h : IsTiling lo hi ps) :
    ∀ p ∈ ps, lo ≤ p.start ∧ p.start < p.end_ ∧ p.end_ ≤ hi := by
  induction ps generalizing lo with
  | nil => intro p hp; simp at hp
  | cons q qs ih =>
    obtain ⟨hstart, hlt, hle, hrec⟩ := h
    intro p hp
    rcases List.mem_cons.mp hp with rfl | hp'
    · exact ⟨le_of_eq hstart.symm, by omega, hle⟩
    · have hb := ih hrec p hp'
      exact ⟨by omega, hb.2.1, hb.2.2⟩

theorem tiling_pairwise {lo hi : Int} {ps : List FlatPart} (h : IsTiling lo hi ps) :
    ps.Pairwise (fun p q => p.end_ ≤ q.start) := by
  induction ps generalizing lo with
  | nil => exact List.Pairwise.nil
  | cons q qs ih =>
    obtain ⟨hstart, hlt, hle, hrec⟩ := h
    exact List.Pairwise.cons (fun b hb => (tiling_bounds hrec b hb).1) (ih hrec)

theorem tiling_cover {lo hi : Int} {ps : List FlatPart} (h : IsTiling lo hi ps)
    (x : Int) :
    (∃ p ∈ ps, p.start ≤ x ∧ x < p.end_) ↔ (lo ≤ x ∧ x < hi) := by
  induction ps generalizing lo with
  | nil =>
    simp only [IsTiling] at h
    constructor
    · rintro ⟨p, hp, _⟩
      exact absurd hp (List.not_mem_nil p)
    · intro hx
      omega
  | cons q qs ih =>
    obtain ⟨hstart, hlt, hle, hrec⟩ := h
    have hcov := ih hrec
    constructor
    · rintro ⟨p, hp, hx1, hx2⟩
      rcases List.mem_cons.mp hp with rfl | hp'
      · omega
      · have := hcov.mp ⟨p, hp', hx1, hx2⟩
        omega
    · rintro ⟨h1, h2⟩
      by_cases hx : x < q.end_
      · exact ⟨q, List.mem_cons_self _ _, by omega, hx⟩
      · obtain ⟨p, hp, h3, h4⟩ := hcov.mpr ⟨by omega, h2⟩
        exact ⟨p, List.mem_cons_of_mem _ hp, h3, h4⟩

theorem tiling_lt {lo hi : Int} {ps : List FlatPart} (h : IsTiling lo hi ps)
    {p : FlatPart} (hp : p ∈ ps) : lo < hi := by
  have hb := tiling_bounds h p hp
  omega

theorem emitParts_tiling (name kind : String) (hi : Int) :
    ∀ (ss : List Section) (pos : Int) (suffix : Nat),
      ss.Pairwise (fun a b => a.range.end_ ≤ b.range.start) →
      (∀ s ∈ ss, pos ≤ s.range.start ∧ s.range.end_ ≤ hi) →
      (∀ s ∈ ss, 0 < s.range.size) →
      IsTiling pos hi (emitParts name kind hi pos suffix ss) := by
  intro ss
  induction ss with
  | nil =>
    intro pos suffix _ _ _
    unfold emitParts
    by_cases h : pos < hi
    · rw [if_pos h]
      exact ⟨rfl, h, le_rfl, le_rfl⟩
    · rw [if_neg h]
      exact not_lt.mp h
  | cons s rest ih =>
    intro pos suffix hchain hbound hpos
    obtain ⟨hhead, hchain'⟩ := List.pairwise_cons.mp hchain
    have hb := hbound s (List.mem_cons_self _ _)
    have hp := hpos s (List.mem_cons_self _ _)
    have hslt : s.range.start < s.range.end_ := by
      unfold Range.end_
      omega
    have hrec : IsTiling s.range.end_ hi
        (emitParts name kind hi s.range.end_ (suffix + 1) rest) :=
      ih s.range.end_ (suffix + 1) hchain'
        (fun t ht => ⟨hhead t ht, (hbound t (List.mem_cons_of_mem _ ht)).2⟩)
        (fun t ht => hpos t (List.mem_cons_of_mem _ ht))
    have hrec' : IsTiling s.range.end_ hi
        (emitParts name kind hi s.range.end_ suffix rest) :=
      ih s.range.end_ suffix hchain'
        (fun t ht => ⟨hhead t ht, (hbound t (List.mem_cons_of_mem _ ht)).2⟩)
        (fun t ht => hpos t (List.mem_cons_of_mem _ ht))
    unfold emitParts
    by_cases h : pos < s.range.start
    · rw [if_pos h]
      exact ⟨rfl, h, by show s.range.start ≤ hi; omega, rfl, hslt, hb.2, hrec⟩
    · have hpe : pos = s.range.start := by omega
      rw [if_neg h]
      exact ⟨hpe.symm, by show pos < s.range.end_; omega, hb.2, hrec'⟩

theorem flattenParts_tiling (seg : Segment)
    (hin : ∀ sec ∈ seg.sections, seg.range.includes sec.range = true)
    (hpos : ∀ sec ∈ seg.sections, 0 < sec.range.size)
    (hno : seg.sections.Pairwise (fun a b => a.range.overlaps b.range = false)) :
    IsTiling seg.range.start seg.range.end_ seg.flattenParts := by
  unfold Segment.flattenParts
  have hperm : (sortLe secSortLe seg.sections).Perm seg.sections := sortLe_perm _ _
  have hsorted : (sortLe secSortLe seg.sections).Pairwise (fun a b => secSortLe a b = true) :=
    sortLe_pairwise _ secSortLe_total secSortLe_trans _
  have hno' : (sortLe secSortLe seg.sections).Pairwise
      (fun a b => a.range.overlaps b.range = false) :=
    (hperm.pairwise_iff (fun {a b} hab => by rw [Range.overlaps_comm]; exact hab)).mpr hno
  have hpos' : ∀ sec ∈ sortLe secSortLe seg.sections, 0 < sec.range.size :=
    fun sec h => hpos sec (hperm.mem_iff.mp h)
  have hin' : ∀ sec ∈ sortLe secSortLe seg.sections, seg.range.includes sec.range = true :=
    fun sec h => hin sec (hperm.mem_iff.mp h)
  have hchain : (sortLe secSortLe seg.sections).Pairwise
      (fun a b => a.range.end_ ≤ b.range.start) := by
    refine pairwise_combine hsorted hno' hpos' ?_
    intro a b _ hpb hr hs
    have hle : a.range.start ≤ b.range.start := by
      simpa [secSortLe, decide_eq_true_eq] using hr
    exact sep_of_le_nonoverlap hle hs hpb
  refine emitParts_tiling seg.name seg.kind seg.range.end_ _ seg.range.start 0
    hchain ?_ hpos'
  intro s hs
  exact includes_bounds (hin' s hs)

theorem flatten_blocks (segs : List Segment)
    (hsorted : segs.Pairwise (fun a b => segSortLe a b = true))
    (hno : segs.Pairwise (fun a b => a.range.overlaps b.range = false))
    (hsec : ∀ seg ∈ segs,
      (∀ sec ∈ seg.sections, seg.range.includes sec.range = true) ∧
      (∀ sec ∈ seg.sections, 0 < sec.range.size) ∧
      seg.sections.Pairwise (fun a b => a.range.overlaps b.range = false)) :
    (∀ p ∈ (segs.map Segment.flattenParts).flatten, p.start < p.end_) ∧
    ((segs.map Segment.flattenParts).flatten).Pairwise (fun p q => p.end_ ≤ q.start) ∧
    (∀ x : Int, (∃ p ∈ (segs.map Segment.flattenParts).flatten, p.start ≤ x ∧ x < p.end_) ↔
      (∃ sg ∈ segs, sg.range.start ≤ x ∧ x < sg.range.end_)) := by
  induction segs with
  | nil => simp
  | cons sg rest ih =>
    obtain ⟨hsorted1, hsorted'⟩ := List.pairwise_cons.mp hsorted
    obtain ⟨hno1, hno'⟩ := List.pairwise_cons.mp hno
    have hsg := hsec sg (List.mem_cons_self _ _)
    have htile : IsTiling sg.range.start sg.range.end_ sg.flattenParts :=
      flattenParts_tiling sg hsg.1 hsg.2.1 hsg.2.2
    have ihres := ih hsorted' hno' (fun s hs => hsec s (List.mem_cons_of_mem _ hs))
    simp only [List.map_cons, List.flatten_cons]
    refine ⟨?_, ?_, ?_⟩
    · intro p hp
      rcases List.mem_append.mp hp with hp' | hp'
      · exact (tiling_bounds htile p hp').2.1
      · exact ihres.1 p hp'
    · rw [List.pairwise_append]
      refine ⟨tiling_pairwise htile, ihres.2.1, ?_⟩
      intro p hp q hq
      obtain ⟨l, hl, hq'⟩ := List.mem_flatten.mp hq
      obtain ⟨sg2, hsg2, rfl⟩ := List.mem_map.mp hl
      have hsg2h := hsec sg2 (List.mem_cons_of_mem _ hsg2)
      have htile2 : IsTiling sg2.range.start sg2.range.end_ sg2.flattenParts :=
        flattenParts_tiling sg2 hsg2h.1 hsg2h.2.1 hsg2h.2.2
      have h2 : sg2.range.start < sg2.range.end_ := tiling_lt htile2 hq'
      have hpos2 : 0 < sg2.range.size := by
        unfold Range.end_ at h2
        omega
      have hle12 : sg.range.start ≤ sg2.range.start := by
        have := hsorted1 sg2 hsg2
        simpa [segSortLe, decide_eq_true_eq] using this
      have hsep : sg.range.end_ ≤ sg2.range.start :=
        sep_of_le_nonoverlap hle12 (hno1 sg2 hsg2) hpos2
      have hpb := tiling_bounds htile p hp
      have hqb := tiling_bounds htile2 q hq'
      omega
    · intro x
      constructor
      · rintro ⟨p, hp, hx1, hx2⟩
        rcases List.mem_append.mp hp with hp' | hp'
        · have := (tiling_cover htile x).mp ⟨p, hp', hx1, hx2⟩
          exact ⟨sg, List.mem_cons_self _ _, this⟩
        · obtain ⟨sg2, hsg2, hx⟩ := (ihres.2.2 x).mp ⟨p, hp', hx1, hx2⟩
          exact ⟨sg2, List.mem_cons_of_mem _ hsg2, hx⟩
      · rintro ⟨sg2, hsg2, hx⟩
        rcases List.mem_cons.mp hsg2 with rfl | hsg2'
        · obtain ⟨p, hp, hx'⟩ := (tiling_cover htile x).mpr hx
          exact ⟨p, List.mem_append.mpr (Or.inl hp), hx'⟩
        · obtain ⟨p, hp, hx'⟩ := (ihres.2.2 x).mpr ⟨sg2, hsg2', hx⟩
          exact ⟨p, List.mem_append.mpr (Or.inr hp), hx'⟩

/-- C1: for a builder whose registered segments are mutually non-overlapping
and whose sections are each contained in their segment, mutually
non-overlapping within it, and of positive size (exactly the state
`add_segment`/`add_section` maintain), `flatten()` returns parts that all
have positive extent, are sorted by start address and pairwise
non-overlapping (`p.end_ ≤ q.start` for any earlier part `p`), and whose
intervals cover exactly the union of the registered segments' intervals —
i.e. they tile every segment with no gap and no overlap. -/
theorem flatten_tiles (b : SegmentBuilder)
    (hno : b.segments.Pairwise (fun a c => a.range.overlaps c.range = false))
    (hsec : ∀ seg ∈ b.segments,
      (∀ sec ∈ seg.sections, seg.range.includes sec.range = true) ∧
      (∀ sec ∈ seg.sections, 0 < sec.range.size) ∧
      seg.sections.Pairwise (fun a c => a.range.overlaps c.range = false)) :
    (∀ p ∈ b.flatten, p.start < p.end_) ∧
    b.flatten.Pairwise (fun p q => p.end_ ≤ q.start) ∧
    (∀ x : Int, (∃ p ∈ b.flatten, p.start ≤ x ∧ x < p.end_) ↔
      (∃ seg ∈ b.segments, seg.range.start ≤ x ∧ x < seg.range.end_)) := by
  unfold SegmentBuilder.flatten
  have hperm : (sortLe segSortLe b.segments).Perm b.segments := sortLe_perm _ _
  have hsorted := sortLe_pairwise segSortLe segSortLe_total segSortLe_trans b.segments
  have hno' : (sortLe segSortLe b.segments).Pairwise
      (fun a c => a.range.overlaps c.range = false) :=
    (hperm.pairwise_iff (fun {a c} hac => by rw [Range.overlaps_comm]; exact hac)).mpr hno
  have hsec' := fun seg h => hsec seg (hperm.mem_iff.mp h)
  have hmain := flatten_blocks _ hsorted hno' hsec'
  refine ⟨hmain.1, hmain.2.1, fun x => (hmain.2.2 x).trans ?_⟩
  constructor
  · rintro ⟨sg, hsg, hx⟩
    exact ⟨sg, hperm.mem_iff.mp hsg, hx⟩
  · rintro ⟨sg, hsg, hx⟩
    exact ⟨sg, hperm.mem_iff.mpr hsg, hx⟩

/-- Witness for C1 at a concrete builder: a code segment `[0,16)` holding a
section `[4,8)` and a data segment `[16,24)` with no sections. -/
theorem flatten_tiles_witness :
    ((SegmentBuilder.mk [⟨⟨0, 16⟩, ".text", "CODE", [⟨⟨4, 4⟩, ".dynamic"⟩]⟩,
        ⟨⟨16, 8⟩, ".data", "DATA", []⟩]).segments.Pairwise
      (fun a c => a.range.overlaps c.range = false)) ∧
    ((∀ p ∈ (SegmentBuilder.mk [⟨⟨0, 16⟩, ".text", "CODE", [⟨⟨4, 4⟩, ".dynamic"⟩]⟩,
        ⟨⟨16, 8⟩, ".data", "DATA", []⟩]).flatten, p.start < p.end_) ∧
      (SegmentBuilder.mk [⟨⟨0, 16⟩, ".text", "CODE", [⟨⟨4, 4⟩, ".dynamic"⟩]⟩,
        ⟨⟨16, 8⟩, ".data", "DATA", []⟩]).flatten.Pairwise (fun p q => p.end_ ≤ q.start) ∧
      (∀ x : Int, (∃ p ∈ (SegmentBuilder.mk [⟨⟨0, 16⟩, ".text", "CODE", [⟨⟨4, 4⟩, ".dynamic"⟩]⟩,
          ⟨⟨16, 8⟩, ".data", "DATA", []⟩]).flatten, p.start ≤ x ∧ x < p.end_) ↔
        (∃ seg ∈ (SegmentBuilder.mk [⟨⟨0, 16⟩, ".text", "CODE", [⟨⟨4, 4⟩, ".dynamic"⟩]⟩,
          ⟨⟨16, 8⟩, ".data", "DATA", []⟩]).segments, seg.range.start ≤ x ∧ x < seg.range.end_))) :=
  ⟨by decide, flatten_tiles _ (by decide) (by decide)⟩

/-- C9 counterexample: `add_segment` with size 0 on an empty builder is NOT
rejected: it succeeds and the zero-size segment is stored in the builder
state (the Python method has no size assertion). -/
theorem add_segment_zero_size_counterexample :
    SegmentBuilder.add_segment ⟨[]⟩ 0 0 ".text" "CODE" =
      some ⟨[⟨⟨0, 0⟩, ".text", "CODE", []⟩]⟩ ∧
    (⟨[⟨⟨0, 0⟩, ".text", "CODE", []⟩]⟩ : SegmentBuilder).segments ≠ [] := by
  decide

/-- C9 (amended): `add_segment` performs no size check — a registration with
size ≤ 0 succeeds whenever the overlap check passes and the segment is
stored — but a stored non-positive-size segment contributes no parts to
`flatten()` (it has no sections and its final gap test `pos < end` fails). -/
theorem add_segment_nonpositive_stored (b : SegmentBuilder) (start size : Int)
    (name kind : String) (b' : SegmentBuilder)
    (hsize : size ≤ 0)
    (h : b.add_segment start size name kind = some b') :
    b'.segments = b.segments ++ [⟨⟨start, size⟩, name, kind, []⟩] ∧
    Segment.flattenParts ⟨⟨start, size⟩, name, kind, []⟩ = [] := by
  constructor
  · unfold SegmentBuilder.add_segment at h
    dsimp only at h
    split at h
    · injection h with h2
      rw [← h2]
    · exact absurd h (by simp)
  · unfold Segment.flattenParts sortLe emitParts
    rw [if_neg]
    show ¬((⟨⟨start, size⟩, name, kind, []⟩ : Segment).range.start <
      (⟨⟨start, size⟩, name, kind, []⟩ : Segment).range.end_)
    unfold Range.end_
    simp only [not_lt]
    omega

/-- Witness for C9's amended theorem at a concrete zero-size registration. -/
theorem add_segment_nonpositive_stored_witness :
    ((0 : Int) ≤ 0 ∧
      SegmentBuilder.add_segment ⟨[]⟩ 0 0 ".bss" "BSS" =
        some ⟨[⟨⟨0, 0⟩, ".bss", "BSS", []⟩]⟩) ∧
    ((⟨[⟨⟨0, 0⟩, ".bss", "BSS", []⟩]⟩ : SegmentBuilder).segments =
        (⟨[]⟩ : SegmentBuilder).segments ++ [⟨⟨0, 0⟩, ".bss", "BSS", []⟩] ∧
      Segment.flattenParts ⟨⟨0, 0⟩, ".bss", "BSS", []⟩ = []) :=
  ⟨⟨le_refl 0, by decide⟩,
    add_segment_nonpositive_stored ⟨[]⟩ 0 0 ".bss" "BSS" _ (le_refl 0) (by decide)⟩

/-- C7 counterexample: a buffer whose 8-byte word at offset 8 (the second of
the "first two words") exceeds the 32-bit range while the words at offsets 0
and 0x10 do not: the code picks the wide width (`armv7 = false`) because it
reads at offsets 0 and 0x10, while the claim's reading would pick narrow. -/
theorem detect_armv7_counterexample :
    detect_armv7 (encodeLE 8 0 ++ encodeLE 8 (2 ^ 32) ++ encodeLE 8 0) 0 =
      Except.ok false ∧
    claimDetectWidth (encodeLE 8 0 ++ encodeLE 8 (2 ^ 32) ++ encodeLE 8 0) 0 =
      Except.ok true := by
  decide

/-- C7 (amended): the narrow width is selected iff one of the two 8-byte
little-endian words at `dynamicoff` and `dynamicoff + 0x10` (the tag fields
of the first two 16-byte dynamic entries) exceeds the 32-bit range. -/
theorem detect_armv7_spec (buf : List Nat) (off a b : Nat)
    (ha : readLE buf off 8 = Except.ok a)
    (hb : readLE buf (off + 0x10) 8 = Except.ok b) :
    detect_armv7 buf off = Except.ok (decide (a > 0xFFFFFFFF ∨ b > 0xFFFFFFFF)) := by
  unfold detect_armv7
  rw [ha]
  dsimp only
  by_cases h : a > 0xFFFFFFFF
  · rw [if_pos h]
    simp [h]
  · rw [if_neg h, hb]
    simp [h]

/-- Witness for C7's amended theorem at a concrete buffer whose word at
offset 0x10 is large. -/
theorem detect_armv7_spec_witness :
    (readLE (encodeLE 8 0 ++ encodeLE 8 0 ++ encodeLE 8 (2 ^ 33)) 0 8 = Except.ok 0 ∧
      readLE (encodeLE 8 0 ++ encodeLE 8 0 ++ encodeLE 8 (2 ^ 33)) (0 + 0x10) 8 =
        Except.ok (2 ^ 33)) ∧
    detect_armv7 (encodeLE 8 0 ++ encodeLE 8 0 ++ encodeLE 8 (2 ^ 33)) 0 =
      Except.ok (decide ((0 : Nat) > 0xFFFFFFFF ∨ (2 ^ 33 : Nat) > 0xFFFFFFFF)) :=
  ⟨⟨by decide, by decide⟩,
    detect_armv7_spec _ 0 0 (2 ^ 33) (by decide) (by decide)⟩

/-- C2 counterexample: a heuristic recovery phase CAN raise.  Here the
unwind header's three encodings match the required values, but the entry
count (1) fails the size check (`8 * 1 ≠ 12 - 12`), so the entry list stays
empty and `sorted(self.eh_table, ...)[-1]` raises IndexError — the load
aborts instead of degrading to an absent feature.  (This state is reachable
from inputs on which all strict phases succeed: `unwindoff`/`unwindend`
come straight from the MOD0 header.) -/
theorem ehPhase_raises_counterexample :
    ehPhase [1, 0x1B, 0x03, 0x3B, 0, 0, 0, 0, 1, 0, 0, 0] 0 12 =
      Except.error "list index out of range" := by
  decide

/-- C2 (amended): the unwind heuristic does degrade to feature-absent (empty
table, no section) whenever the header encodings preclude it — any omit byte
(0xff) or an encoding triple other than (0x1B, 0x03, 0x3B) — but when the
encodings match and the recovered entry list is empty, the phase raises
instead of degrading. -/
theorem ehPhase_degrades (buf : List Nat) (uoff uend : Nat) (hdr : List Nat)
    (hread : readBytes buf uoff 4 = Except.ok hdr)
    (hpre : hdr.getD 1 0 = 0xff ∨ hdr.getD 2 0 = 0xff ∨ hdr.getD 3 0 = 0xff ∨
      ¬(hdr.getD 1 0 = 0x1B ∧ hdr.getD 2 0 = 0x03 ∧ hdr.getD 3 0 = 0x3B)) :
    ehPhase buf uoff uend = Except.ok ([], none) := by
  unfold ehPhase
  rw [hread]
  dsimp only
  by_cases h1 : hdr.getD 1 0 = 0xff ∨ hdr.getD 2 0 = 0xff ∨ hdr.getD 3 0 = 0xff
  · rw [if_pos h1]
  · rw [if_neg h1]
    have h2 : ¬(hdr.getD 1 0 = 0x1B ∧ hdr.getD 2 0 = 0x03 ∧ hdr.getD 3 0 = 0x3B) := by
      rcases hpre with h | h | h | h
      · exact absurd (Or.inl h) h1
      · exact absurd (Or.inr (Or.inl h)) h1
      · exact absurd (Or.inr (Or.inr h)) h1
      · exact h
    rw [if_neg h2]

/-- Witness for C2's amended theorem: an unmatched encoding triple degrades
to feature-absent. -/
theorem ehPhase_degrades_witness :
    (readBytes [1, 0x1A, 0x03, 0x3B] 0 4 = Except.ok [1, 0x1A, 0x03, 0x3B] ∧
      (([1, 0x1A, 0x03, 0x3B] : List Nat).getD 1 0 = 0xff ∨
        ([1, 0x1A, 0x03, 0x3B] : List Nat).getD 2 0 = 0xff ∨
        ([1, 0x1A, 0x03, 0x3B] : List Nat).getD 3 0 = 0xff ∨
        ¬(([1, 0x1A, 0x03, 0x3B] : List Nat).getD 1 0 = 0x1B ∧
          ([1, 0x1A, 0x03, 0x3B] : List Nat).getD 2 0 = 0x03 ∧
          ([1, 0x1A, 0x03, 0x3B] : List Nat).getD 3 0 = 0x3B))) ∧
    ehPhase [1, 0x1A, 0x03, 0x3B] 0 99 = Except.ok ([], none) :=
  ⟨⟨by decide, by decide⟩,
    ehPhase_degrades [1, 0x1A, 0x03, 0x3B] 0 99 [1, 0x1A, 0x03, 0x3B]
      (by decide) (by decide)⟩

theorem ehSortLe_total : ∀ a b : Int × Int, ehSortLe a b = true ∨ ehSortLe b a = true := by
  intro a b
  unfold ehSortLe
  rcases le_total a.2 b.2 with h | h
  · exact Or.inl (decide_eq_true h)
  · exact Or.inr (decide_eq_true h)

theorem ehSortLe_trans : ∀ a b c : Int × Int,
    ehSortLe a b = true → ehSortLe b c = true → ehSortLe a c = true := by
  intro a b c hab hbc
  simp only [ehSortLe, decide_eq_true_eq] at *
  omega

theorem pairwise_getLast_ge {R : α → α → Prop} :
    ∀ (l : List α) (z : α), l.Pairwise R → l.getLast? = some z →
      z ∈ l ∧ ∀ p ∈ l, R p z ∨ p = z := by
  intro l
  induction l with
  | nil =>
    intro z _ hz
    simp at hz
  | cons x xs ih =>
    intro z hp hz
    rcases List.pairwise_cons.mp hp with ⟨hx, hxs⟩
    cases xs with
    | nil =>
      have hzx : z = x := by
        simpa [List.getLast?] using hz.symm
      subst hzx
      refine ⟨List.mem_singleton_self z, ?_⟩
      intro p hp'
      rcases List.mem_cons.mp hp' with rfl | hp''
      · exact Or.inr rfl
      · exact absurd hp'' (List.not_mem_nil p)
    | cons y ys =>
      have hz' : (y :: ys).getLast? = some z := by
        simpa [List.getLast?_cons_cons] using hz
      obtain ⟨hzm, hall⟩ := ih z hxs hz'
      refine ⟨List.mem_cons_of_mem _ hzm, ?_⟩
      intro p hp'
      rcases List.mem_cons.mp hp' with rfl | hp''
      · exact Or.inl (hx z hzm)
      · exact hall p hp''

/-- C6 counterexample: two unwind entries with info offsets 10 and 20: the
registered `.eh_frame` section ends at 20 — the LARGEST entry's info offset
(`sorted(...)[-1][1]`) — not at the second-largest (10) as the claim states. -/
theorem ehFrame_end_counterexample :
    ehPhase [1, 0x1B, 0x03, 0x3B, 0, 0, 0, 0, 2, 0, 0, 0,
        0, 0, 0, 0, 10, 0, 0, 0, 0, 0, 0, 0, 20, 0, 0, 0] 0 28 =
      Except.ok ([(0, 10), (0, 20)], some (4, 20)) ∧
    specSecondLargestInfo [(0, 10), (0, 20)] = some 10 ∧ ((20 : Int) ≠ 10) := by
  decide

/-- C6 (amended): when the 64-bit unwind phase succeeds and registers a
section, the `.eh_frame` span ends at the MAXIMUM entry unwind-info offset
(the last element after sorting by info offset); that last entry's own
extent is not recovered. -/
theorem ehFrame_end_is_max (buf : List Nat) (uoff uend : Nat)
    (tbl : List (Int × Int)) (s e : Int)
    (h : ehPhase buf uoff uend = Except.ok (tbl, some (s, e))) :
    (∃ p ∈ tbl, p.2 = e) ∧ ∀ p ∈ tbl, p.2 ≤ e := by
  unfold ehPhase at h
  split at h
  · exact absurd h (by simp)
  · dsimp only at h
    split at h
    · exact absurd h (by simp)
    · split at h
      · split at h
        · exact absurd h (by simp)
        · split at h
          · exact absurd h (by simp)
          · split at h
            · exact absurd h (by simp)
            · rename_i tbl' heqtbl
              split at h
              · exact absurd h (by simp)
              · rename_i lastp hlast
                simp only [Except.ok.injEq, Prod.mk.injEq, Option.some.injEq] at h
                obtain ⟨htbl, _, he⟩ := h
                subst htbl
                have hperm : (sortLe ehSortLe tbl').Perm tbl' := sortLe_perm _ _
                have hpw : (sortLe ehSortLe tbl').Pairwise (fun a b => ehSortLe a b = true) :=
                  sortLe_pairwise _ ehSortLe_total ehSortLe_trans _
                obtain ⟨hzm, hall⟩ := pairwise_getLast_ge _ _ hpw hlast
                constructor
                · exact ⟨lastp, hperm.mem_iff.mp hzm, he⟩
                · intro p hp
                  have hps : p ∈ sortLe ehSortLe tbl' := hperm.mem_iff.mpr hp
                  rcases hall p hps with hle | heq
                  · have := of_decide_eq_true hle
                    omega
                  · rw [heq, he]
      · exact absurd h (by simp)

/-- Witness for C6's amended theorem at the concrete two-entry unwind table. -/
theorem ehFrame_end_is_max_witness :
    ehPhase [1, 0x1B, 0x03, 0x3B, 0, 0, 0, 0, 2, 0, 0, 0,
        0, 0, 0, 0, 10, 0, 0, 0, 0, 0, 0, 0, 20, 0, 0, 0] 0 28 =
      Except.ok ([((0 : Int), (10 : Int)), (0, 20)], some (4, 20)) ∧
    ((∃ p ∈ [((0 : Int), (10 : Int)), (0, 20)], p.2 = 20) ∧
      ∀ p ∈ [((0 : Int), (10 : Int)), (0, 20)], p.2 ≤ 20) :=
  ⟨by decide,
    ehFrame_end_is_max [1, 0x1B, 0x03, 0x3B, 0, 0, 0, 0, 2, 0, 0, 0,
        0, 0, 0, 0, 10, 0, 0, 0, 0, 0, 0, 0, 20, 0, 0, 0] 0 28
      [((0 : Int), (10 : Int)), (0, 20)] 4 20 (by decide)⟩

theorem readLE_encode (pre rest : List Nat) {w v : Nat} (hv : v < 256 ^ w) :
    readLE (pre ++ (encodeLE w v ++ rest)) pre.length w = Except.ok v := by
  unfold readLE readBytes
  have hlen : pre.length + w ≤ (pre ++ (encodeLE w v ++ rest)).length := by
    simp [encodeLE_length]
  rw [if_pos hlen]
  have h1 : (pre ++ (encodeLE w v ++ rest)).drop pre.length = encodeLE w v ++ rest :=
    List.drop_left pre _
  rw [h1, List.take_left' (encodeLE_length w v)]
  simp [Except.map, leNat_encodeLE w v hv]

theorem readLE_encode_at (buf pre rest : List Nat) {w v : Nat} (hv : v < 256 ^ w)
    (hbuf : buf = pre ++ (encodeLE w v ++ rest)) (pos : Nat) (hpos : pos = pre.length) :
    readLE buf pos w = Except.ok v := by
  subst hbuf
  subst hpos
  exact readLE_encode pre rest hv

theorem parseDynamicLoop_step (buf : List Nat) (armv7 : Bool) (count pos : Nat)
    (acc : DynResult) (tag val : Nat)
    (htag : readLE buf pos (dynWidth armv7) = Except.ok tag)
    (hval : readLE buf (pos + dynWidth armv7) (dynWidth armv7) = Except.ok val)
    (hnz : tag ≠ 0) :
    parseDynamicLoop buf armv7 (count + 1) pos acc =
      parseDynamicLoop buf armv7 count (pos + 2 * dynWidth armv7) (dynStep acc (tag, val)) := by
  conv_lhs => rw [parseDynamicLoop]
  try dsimp only
  rw [htag, hval]
  try dsimp only
  rw [if_neg hnz]
  by_cases h1 : tag = 1
  · rw [if_pos h1]
    simp [dynStep, h1]
  · rw [if_neg h1]
    simp [dynStep, h1]

theorem parseDynamicLoop_null (buf : List Nat) (armv7 : Bool) (count pos : Nat)
    (acc : DynResult) (zv : Nat)
    (htag : readLE buf pos (dynWidth armv7) = Except.ok 0)
    (hval : readLE buf (pos + dynWidth armv7) (dynWidth armv7) = Except.ok zv) :
    parseDynamicLoop buf armv7 (count + 1) pos acc = Except.ok (acc, pos + 2 * dynWidth armv7) := by
  conv_lhs => rw [parseDynamicLoop]
  try dsimp only
  rw [htag, hval]
  try dsimp only
  rw [if_pos rfl]

theorem parseDynamicLoop_encode (armv7 : Bool) (zv : Nat) (hzv : zv < 256 ^ dynWidth armv7) :
    ∀ (es : List (Nat × Nat)) (pre junk : List Nat) (count : Nat) (acc : DynResult),
      (∀ e ∈ es, e.1 ≠ 0 ∧ e.1 < 256 ^ dynWidth armv7 ∧ e.2 < 256 ^ dynWidth armv7) →
      es.length < count →
      parseDynamicLoop (pre ++ (encodeTable (dynWidth armv7) es ++
          (encodePair (dynWidth armv7) (0, zv) ++ junk))) armv7 count pre.length acc =
        Except.ok (es.foldl dynStep acc,
          pre.length + (es.length + 1) * (2 * dynWidth armv7)) := by
  intro es
  induction es with
  | nil =>
    intro pre junk count acc _ hcount
    obtain ⟨count', rfl⟩ : ∃ c, count = c + 1 := ⟨count - 1, by omega⟩
    have hbuf : pre ++ (encodeTable (dynWidth armv7) [] ++
        (encodePair (dynWidth armv7) (0, zv) ++ junk)) =
        pre ++ (encodeLE (dynWidth armv7) 0 ++ (encodeLE (dynWidth armv7) zv ++ junk)) := by
      simp [encodeTable, encodePair]
    have htag : readLE (pre ++ (encodeTable (dynWidth armv7) [] ++
        (encodePair (dynWidth armv7) (0, zv) ++ junk))) pre.length (dynWidth armv7) =
        Except.ok 0 :=
      readLE_encode_at _ pre _ (Nat.pos_pow_of_pos _ (by norm_num)) hbuf _ rfl
    have hval : readLE (pre ++ (encodeTable (dynWidth armv7) [] ++
        (encodePair (dynWidth armv7) (0, zv) ++ junk)))
        (pre.length + dynWidth armv7) (dynWidth armv7) = Except.ok zv := by
      refine readLE_encode_at _ (pre ++ encodeLE (dynWidth armv7) 0) junk hzv ?_ _ ?_
      · rw [hbuf]
        simp [List.append_assoc]
      · simp [encodeLE_length]
    rw [parseDynamicLoop_null _ _ _ _ _ _ htag hval]
    norm_num
  | cons e es' ih =>
    intro pre junk count acc hv hcount
    obtain ⟨count', rfl⟩ : ∃ c, count = c + 1 := ⟨count - 1, by omega⟩
    have hve := hv e (List.mem_cons_self _ _)
    have hbuf : pre ++ (encodeTable (dynWidth armv7) (e :: es') ++
        (encodePair (dynWidth armv7) (0, zv) ++ junk)) =
        pre ++ (encodeLE (dynWidth armv7) e.1 ++ (encodeLE (dynWidth armv7) e.2 ++
          (encodeTable (dynWidth armv7) es' ++ (encodePair (dynWidth armv7) (0, zv) ++ junk)))) := by
      simp [encodeTable, encodePair, List.append_assoc]
    have htag : readLE (pre ++ (encodeTable (dynWidth armv7) (e :: es') ++
        (encodePair (dynWidth armv7) (0, zv) ++ junk))) pre.length (dynWidth armv7) =
        Except.ok e.1 :=
      readLE_encode_at _ pre _ hve.2.1 hbuf _ rfl
    have hval : readLE (pre ++ (encodeTable (dynWidth armv7) (e :: es') ++
        (encodePair (dynWidth armv7) (0, zv) ++ junk)))
        (pre.length + dynWidth armv7) (dynWidth armv7) = Except.ok e.2 := by
      refine readLE_encode_at _ (pre ++ encodeLE (dynWidth armv7) e.1)
        (encodeTable (dynWidth armv7) es' ++ (encodePair (dynWidth armv7) (0, zv) ++ junk))
        hve.2.2 ?_ _ ?_
      · rw [hbuf]
        simp [List.append_assoc]
      · simp [encodeLE_length]
    rw [parseDynamicLoop_step _ _ _ _ _ _ _ htag hval hve.1]
    have hpre2 : pre ++ (encodeTable (dynWidth armv7) (e :: es') ++
        (encodePair (dynWidth armv7) (0, zv) ++ junk)) =
        (pre ++ encodePair (dynWidth armv7) e) ++ (encodeTable (dynWidth armv7) es' ++
          (encodePair (dynWidth armv7) (0, zv) ++ junk)) := by
      simp [encodeTable, encodePair, List.append_assoc]
    have hlen2 : (pre ++ encodePair (dynWidth armv7) e).length = pre.length + 2 * dynWidth armv7 := by
      simp [encodePair, encodeLE_length]
      omega
    have hrec := ih (pre ++ encodePair (dynWidth armv7) e) junk count'
      (dynStep acc (e.1, e.2)) (fun t ht => hv t (List.mem_cons_of_mem _ ht))
      (by simp only [List.length_cons] at hcount; omega)
    rw [hpre2, ← hlen2]
    rw [hrec]
    have harith : (pre ++ encodePair (dynWidth armv7) e).length +
        (es'.length + 1) * (2 * dynWidth armv7) =
        pre.length + ((e :: es').length + 1) * (2 * dynWidth armv7) := by
      rw [hlen2]
      simp only [List.length_cons]
      ring
    rw [harith]
    simp only [List.foldl_cons, Prod.mk.eta]

theorem dynStep_foldl_needed : ∀ (es : List (Nat × Nat)) (acc : DynResult),
    (es.foldl dynStep acc).needed = acc.needed ++ (es.filter (fun e => e.1 == 1)).map (·.2) := by
  intro es
  induction es with
  | nil =>
    intro acc
    simp
  | cons e es' ih =>
    intro acc
    simp only [List.foldl_cons]
    rw [ih]
    by_cases h : e.1 = 1
    · simp [dynStep, h]
    · simp [dynStep, h]

theorem dtLookup_update_self (m : List (Nat × Nat)) (t v : Nat) :
    dtLookup (dtUpdate m t v) t = some v := by
  simp [dtLookup, dtUpdate]

theorem dtLookup_update_other (m : List (Nat × Nat)) (t v u : Nat) (h : u ≠ t) :
    dtLookup (dtUpdate m t v) u = dtLookup m u := by
  simp only [dtLookup, dtUpdate]
  rw [List.find?_cons_of_neg]
  simp [Ne.symm h]

/-- C4 (amended): parsing a byte image that encodes (tag, value) pairs of the
detected width followed by a null entry and arbitrary junk consumes exactly
the pairs before the null entry — nothing after the null tag is read —
provided the iteration budget `(flatsize - dynamicoff) / 0x10` exceeds the
number of pairs (the budget divides by 0x10 regardless of the detected
width; see the counterexample for the armv7 consequence).  `DT_NEEDED`
values accumulate in insertion order (the `needed` list is exactly the
values of the tag-1 pairs in table order); every other tag is a dict
assignment, so a later write to the same tag shadows an earlier one. -/
theorem parseDynamic_spec (armv7 : Bool) (es : List (Nat × Nat)) (zv : Nat)
    (pre junk : List Nat) (flatsize : Nat)
    (hzv : zv < 256 ^ dynWidth armv7)
    (hvals : ∀ e ∈ es, e.1 ≠ 0 ∧ e.1 < 256 ^ dynWidth armv7 ∧ e.2 < 256 ^ dynWidth armv7)
    (hcount : es.length < (flatsize - pre.length) / 0x10) :
    parseDynamic (pre ++ (encodeTable (dynWidth armv7) es ++
        (encodePair (dynWidth armv7) (0, zv) ++ junk))) pre.length flatsize armv7 =
      Except.ok (es.foldl dynStep ⟨[], []⟩,
        pre.length + (es.length + 1) * (2 * dynWidth armv7)) ∧
    (es.foldl dynStep ⟨[], []⟩).needed = (es.filter (fun e => e.1 == 1)).map (·.2) := by
  constructor
  · exact parseDynamicLoop_encode armv7 zv hzv es pre junk _ ⟨[], []⟩ hvals hcount
  · rw [dynStep_foldl_needed]
    rfl

/-- Witness for C4's amended theorem: the wide-width table
`[(DT_NEEDED,5), (DT_NEEDED,9), (10,7), (10,8), (DT_NULL,0)]` followed by a
junk pair with tag 11 yields needed list `[5, 9]` in insertion order, the
last write 8 wins for tag 10, and the junk tag 11 is never read. -/
theorem parseDynamic_spec_witness :
    ((0 : Nat) < 256 ^ dynWidth false ∧
      (∀ e ∈ [((1 : Nat), (5 : Nat)), (1, 9), (10, 7), (10, 8)],
        e.1 ≠ 0 ∧ e.1 < 256 ^ dynWidth false ∧ e.2 < 256 ^ dynWidth false) ∧
      ([((1 : Nat), (5 : Nat)), (1, 9), (10, 7), (10, 8)].length <
        ((96 : Nat) - ([] : List Nat).length) / 0x10)) ∧
    (parseDynamic (([] : List Nat) ++ (encodeTable (dynWidth false)
          [((1 : Nat), (5 : Nat)), (1, 9), (10, 7), (10, 8)] ++
        (encodePair (dynWidth false) (0, 0) ++ encodePair 8 (11, 3))))
        ([] : List Nat).length 96 false =
      Except.ok ([((1 : Nat), (5 : Nat)), (1, 9), (10, 7), (10, 8)].foldl dynStep ⟨[], []⟩,
        ([] : List Nat).length +
          (([((1 : Nat), (5 : Nat)), (1, 9), (10, 7), (10, 8)].length + 1) *
            (2 * dynWidth false))) ∧
      ([((1 : Nat), (5 : Nat)), (1, 9), (10, 7), (10, 8)].foldl dynStep ⟨[], []⟩).needed =
        ([((1 : Nat), (5 : Nat)), (1, 9), (10, 7), (10, 8)].filter
          (fun e => e.1 == 1)).map (·.2)) ∧
    (([((1 : Nat), (5 : Nat)), (1, 9), (10, 7), (10, 8)].foldl dynStep ⟨[], []⟩).needed = [5, 9] ∧
      dtLookup ([((1 : Nat), (5 : Nat)), (1, 9), (10, 7), (10, 8)].foldl dynStep ⟨[], []⟩).table 10 =
        some 8 ∧
      dtLookup ([((1 : Nat), (5 : Nat)), (1, 9), (10, 7), (10, 8)].foldl dynStep ⟨[], []⟩).table 11 =
        none) :=
  ⟨⟨by decide, by decide, by decide⟩,
    parseDynamic_spec false [(1, 5), (1, 9), (10, 7), (10, 8)] 0 [] (encodePair 8 (11, 3)) 96
      (by decide) (by decide) (by decide),
    by decide, by decide, by decide⟩

/-- C4 counterexample: on the narrow architecture the iteration budget is
still `region / 0x10` although pairs are 8 bytes wide.  With a 32-byte
region holding four non-null narrow pairs, parsing stops after two pairs at
cursor 16: the region is not exhausted and no null tag was read, yet the
entries for tags 4 and 5 are never parsed. -/
theorem parseDynamic_armv7_budget_counterexample :
    parseDynamic (encodeTable 4 [(2, 10), (3, 20), (4, 30), (5, 40)]) 0 32 true =
      Except.ok (⟨[], [(3, 20), (2, 10)]⟩, 16) ∧
    (∀ e ∈ [((2 : Nat), (10 : Nat)), (3, 20), (4, 30), (5, 40)], e.1 ≠ 0) ∧
    dtLookup [((3 : Nat), (20 : Nat)), (2, 10)] 4 = none ∧ ((16 : Nat) ≠ 32) := by
  decide

theorem readBytes_ok_val {buf : List Nat} {off n : Nat} {out : List Nat}
    (h : readBytes buf off n = Except.ok out) : out = (buf.drop off).take n := by
  unfold readBytes at h
  split at h
  · injection h with h2
    exact h2.symm
  · exact absurd h (by simp)

theorem parseSymtabLoop_spec (buf dynstr : List Nat) (armv7 : Bool)
    (soff stroff : Nat) :
    ∀ (fuel j : Nat) (acc syms : List ElfSym) (endpos : Nat),
      parseSymtabLoop buf dynstr armv7 soff stroff fuel
          (soff + j * symRecSize armv7) acc = Except.ok (syms, endpos) →
      ∃ tail : List ElfSym, syms = acc ++ tail ∧
        (∀ i (hi : i < tail.length),
          ¬(soff < stroff ∧ stroff ≤ soff + (j + i) * symRecSize armv7) ∧
          symNameAt buf armv7 soff (j + i) ≤ dynstr.length ∧
          symRecord buf dynstr armv7 soff (j + i) = Except.ok (tail.get ⟨i, hi⟩)) ∧
        ((endpos = soff + (j + tail.length) * symRecSize armv7 ∧
            soff < stroff ∧ stroff ≤ endpos) ∨
          (endpos = soff + (j + tail.length + 1) * symRecSize armv7 ∧
            ¬(soff < stroff ∧ stroff ≤ soff + (j + tail.length) * symRecSize armv7) ∧
            symNameAt buf armv7 soff (j + tail.length) > dynstr.length)) := by
  intro fuel
  induction fuel with
  | zero =>
    intro j acc syms endpos h
    exact absurd h (by simp [parseSymtabLoop])
  | succ fuel ih =>
    intro j acc syms endpos h
    rw [parseSymtabLoop] at h
    by_cases hstop : soff < stroff ∧ stroff ≤ soff + j * symRecSize armv7
    · rw [if_pos hstop] at h
      simp only [Except.ok.injEq, Prod.mk.injEq] at h
      obtain ⟨hsyms, hend⟩ := h
      refine ⟨[], by simp [hsyms], ?_, Or.inl ?_⟩
      · intro i hi
        simp at hi
      · subst hend
        simpa using hstop
    · rw [if_neg hstop] at h
      dsimp only at h
      rcases hrb : readBytes buf (soff + j * symRecSize armv7) (symRecSize armv7) with e | bytes
      · rw [hrb] at h
        exact absurd h (by simp)
      · rw [hrb] at h
        dsimp only at h
        have hbytes : bytes = symRecordBytes buf armv7 soff j := by
          rw [readBytes_ok_val hrb, symRecordBytes]
        rcases hds : decodeSym armv7 bytes with ⟨nm0, inf, oth, shx, vl, szz⟩
        rw [hds] at h
        dsimp only at h
        have hnameat : symNameAt buf armv7 soff j = nm0 := by
          rw [symNameAt, ← hbytes, hds]
        by_cases hname : nm0 > dynstr.length
        · rw [if_pos hname] at h
          simp only [Except.ok.injEq, Prod.mk.injEq] at h
          obtain ⟨hsyms, hend⟩ := h
          refine ⟨[], by simp [hsyms], ?_, Or.inr ?_⟩
          · intro i hi
            simp at hi
          · subst hend
            refine ⟨by simp only [List.length_nil, Nat.add_zero]; ring,
              by simpa using hstop, ?_⟩
            simpa [hnameat] using hname
        · rw [if_neg hname] at h
          rcases hgd : get_dynstr dynstr nm0 with e | nm
          · rw [hgd] at h
            exact absurd h (by simp)
          · rw [hgd] at h
            have hpos1 : soff + j * symRecSize armv7 + symRecSize armv7 =
                soff + (j + 1) * symRecSize armv7 := by ring
            rw [hpos1] at h
            obtain ⟨tail', hsyms, hprops, hstop'⟩ := ih (j + 1) _ syms endpos h
            refine ⟨ElfSym.make nm inf oth shx vl szz :: tail', ?_, ?_, ?_⟩
            · rw [hsyms]
              simp
            · intro i hi
              cases i with
              | zero =>
                refine ⟨by simpa using hstop, ?_, ?_⟩
                · rw [Nat.add_zero, hnameat]
                  omega
                · rw [Nat.add_zero, symRecord, ← hbytes, hds]
                  simp [hgd, Except.map]
              | succ i =>
                have hi' : i < tail'.length := by
                  simpa using hi
                have hp := hprops i hi'
                have harith : j + 1 + i = j + (i + 1) := by ring
                rw [harith] at hp
                exact ⟨hp.1, hp.2.1, hp.2.2⟩
            · rcases hstop' with ⟨he, hs1, hs2⟩ | ⟨he, hs1, hs2⟩
              · refine Or.inl ⟨?_, hs1, hs2⟩
                rw [he]
                congr 1
                simp only [List.length_cons]
                ring
              · refine Or.inr ⟨?_, ?_, ?_⟩
                · rw [he]
                  congr 1
                  simp only [List.length_cons]
                  ring
                · have harith : j + 1 + tail'.length = j + (tail'.length + 1) := by ring
                  rw [harith] at hs1
                  simpa using hs1
                · have harith : j + 1 + tail'.length = j + (tail'.length + 1) := by ring
                  rw [harith] at hs2
                  simpa using hs2

/-- C5: when symbol-table parsing returns normally, every parsed record `i`
was read with neither sentinel firing at its position (the cursor had not
reached the string-table offset when the string table follows the symbol
table, and the record's name offset was within the string-table length),
each returned symbol is the decode of record `i`, and the loop ended
exactly by (a) the cursor reaching the string-table offset — that record
not being read — or (b) a just-read record's name offset exceeding the
string-table length — that record being discarded. -/
theorem parseSymtab_characterization (buf dynstr : List Nat) (armv7 : Bool)
    (symtaboff strtaboff : Nat) (syms : List ElfSym) (endpos : Nat)
    (h : parseSymtab buf dynstr armv7 symtaboff strtaboff = Except.ok (syms, endpos)) :
    (∀ i (hi : i < syms.length),
      ¬(symtaboff < strtaboff ∧ strtaboff ≤ symtaboff + i * symRecSize armv7) ∧
      symNameAt buf armv7 symtaboff i ≤ dynstr.length ∧
      symRecord buf dynstr armv7 symtaboff i = Except.ok (syms.get ⟨i, hi⟩)) ∧
    ((endpos = symtaboff + syms.length * symRecSize armv7 ∧
        symtaboff < strtaboff ∧ strtaboff ≤ endpos) ∨
      (endpos = symtaboff + (syms.length + 1) * symRecSize armv7 ∧
        ¬(symtaboff < strtaboff ∧ strtaboff ≤ symtaboff + syms.length * symRecSize armv7) ∧
        symNameAt buf armv7 symtaboff syms.length > dynstr.length)) := by
  unfold parseSymtab at h
  obtain ⟨tail, hsyms, hprops, hstop⟩ :=
    parseSymtabLoop_spec buf dynstr armv7 symtaboff strtaboff (buf.length + 1) 0 [] syms
      endpos (by simpa using h)
  have htail : tail = syms := by simpa using hsyms.symm
  subst htail
  constructor
  · intro i hi
    have hp := hprops i hi
    simpa using hp
  · rcases hstop with ⟨he, h1, h2⟩ | ⟨he, h1, h2⟩
    · exact Or.inl ⟨by simpa using he, h1, h2⟩
    · exact Or.inr ⟨by simpa using he, by simpa using h1, by simpa using h2⟩

/-- Witness for C5 at a concrete 64-bit table: one record with name offset 1
("A" in the string table), parsing stopped by the cursor reaching the
string-table offset 24. -/
theorem parseSymtab_characterization_witness :
    parseSymtab ([1, 0, 0, 0] ++ List.replicate 20 0) [0, 65, 0] false 0 24 =
      Except.ok ([⟨[65], 0, 0, 0, 0, 0, 0⟩], 24) ∧
    ((∀ i (hi : i < ([⟨[65], 0, 0, 0, 0, 0, 0⟩] : List ElfSym).length),
      ¬((0 : Nat) < 24 ∧ 24 ≤ 0 + i * symRecSize false) ∧
      symNameAt ([1, 0, 0, 0] ++ List.replicate 20 0) false 0 i ≤ ([0, 65, 0] : List Nat).length ∧
      symRecord ([1, 0, 0, 0] ++ List.replicate 20 0) [0, 65, 0] false 0 i =
        Except.ok (([⟨[65], 0, 0, 0, 0, 0, 0⟩] : List ElfSym).get ⟨i, hi⟩)) ∧
    (((24 : Nat) = 0 + ([⟨[65], 0, 0, 0, 0, 0, 0⟩] : List ElfSym).length * symRecSize false ∧
        (0 : Nat) < 24 ∧ (24 : Nat) ≤ 24) ∨
      ((24 : Nat) = 0 + (([⟨[65], 0, 0, 0, 0, 0, 0⟩] : List ElfSym).length + 1) * symRecSize false ∧
        ¬((0 : Nat) < 24 ∧ 24 ≤ 0 + ([⟨[65], 0, 0, 0, 0, 0, 0⟩] : List ElfSym).length * symRecSize false) ∧
        symNameAt ([1, 0, 0, 0] ++ List.replicate 20 0) false 0
          ([⟨[65], 0, 0, 0, 0, 0, 0⟩] : List ElfSym).length > ([0, 65, 0] : List Nat).length))) :=
  ⟨by decide,
    parseSymtab_characterization ([1, 0, 0, 0] ++ List.replicate 20 0) [0, 65, 0] false 0 24
      [⟨[65], 0, 0, 0, 0, 0, 0⟩] 24 (by decide)⟩

theorem blzCopy_length {dsize segmentoffset : Nat} :
    ∀ (j outindex : Nat) (dec : List Nat) (out2 : Nat) (dec2 : List Nat),
      blzCopy dsize segmentoffset j outindex dec = Except.ok (out2, dec2) →
      dec2.length = dec.length := by
  intro j
  induction j with
  | zero =>
    intro outindex dec out2 dec2 h
    simp only [blzCopy, Except.ok.injEq, Prod.mk.injEq] at h
    rw [← h.2]
  | succ j ih =>
    intro outindex dec out2 dec2 h
    rw [blzCopy] at h
    split at h
    · exact absurd h (by simp)
    · have hrec := ih _ _ _ _ h
      rw [hrec]
      simp

theorem blzInner_length (compressed : List Nat) (dsize : Nat)
    (pyread : List Nat → Int → Except String Nat) :
    ∀ (bits control outindex : Nat) (index : Int) (dec : List Nat)
      (out2 : Nat) (idx2 : Int) (dec2 : List Nat),
      blzInner compressed dsize pyread bits control outindex index dec =
        Except.ok (out2, idx2, dec2) →
      dec2.length = dec.length := by
  intro bits
  induction bits with
  | zero =>
    intro control outindex index dec out2 idx2 dec2 h
    simp only [blzInner, Except.ok.injEq, Prod.mk.injEq] at h
    rw [← h.2.2]
  | succ bits ih =>
    intro control outindex index dec out2 idx2 dec2 h
    rw [blzInner] at h
    by_cases hc : control &&& 0x80 ≠ 0
    · rw [if_pos hc] at h
      by_cases hidx : index < 2
      · rw [if_pos hidx] at h
        exact absurd h (by simp)
      · rw [if_neg hidx] at h
        dsimp only at h
        rcases hp0 : pyread compressed (index - 2) with e | b0
        · rw [hp0] at h
          exact absurd h (by simp)
        · rcases hp1 : pyread compressed (index - 2 + 1) with e | b1
          · rw [hp0, hp1] at h
            exact absurd h (by simp)
          · rw [hp0, hp1] at h
            dsimp only at h
            by_cases hsz : outindex < ((b0 ||| b1 <<< 8) >>> 12 &&& 15) + 3
            · rw [if_pos hsz] at h
              exact absurd h (by simp)
            · rw [if_neg hsz] at h
              rcases hcopy : blzCopy dsize (((b0 ||| b1 <<< 8) &&& 4095) + 2)
                  (((b0 ||| b1 <<< 8) >>> 12 &&& 15) + 3) outindex dec with e | state
              · rw [hcopy] at h
                exact absurd h (by simp)
              · obtain ⟨o2, d2⟩ := state
                rw [hcopy] at h
                dsimp only at h
                by_cases ho : o2 = 0
                · rw [if_pos ho] at h
                  simp only [Except.ok.injEq, Prod.mk.injEq] at h
                  rw [← h.2.2]
                  exact blzCopy_length _ _ _ _ _ hcopy
                · rw [if_neg ho] at h
                  have hrec := ih _ _ _ _ _ _ _ h
                  rw [hrec]
                  exact blzCopy_length _ _ _ _ _ hcopy
    · rw [if_neg hc] at h
      by_cases ho1 : outindex < 1
      · rw [if_pos ho1] at h
        exact absurd h (by simp)
      · rw [if_neg ho1] at h
        dsimp only at h
        rcases hp : pyread compressed (index - 1) with e | byte
        · rw [hp] at h
          exact absurd h (by simp)
        · rw [hp] at h
          dsimp only at h
          by_cases ho : outindex - 1 = 0
          · rw [if_pos ho] at h
            simp only [Except.ok.injEq, Prod.mk.injEq] at h
            rw [← h.2.2]
            simp
          · rw [if_neg ho] at h
            have hrec := ih _ _ _ _ _ _ _ h
            rw [hrec]
            simp

theorem blzOuter_length (compressed : List Nat) (dsize : Nat)
    (pyread : List Nat → Int → Except String Nat) :
    ∀ (fuel outindex : Nat) (index : Int) (dec out : List Nat),
      blzOuter compressed dsize pyread fuel outindex index dec = Except.ok out →
      out.length = dec.length := by
  intro fuel
  induction fuel with
  | zero =>
    intro outindex index dec out h
    exact absurd h (by simp [blzOuter])
  | succ fuel ih =>
    intro outindex index dec out h
    rw [blzOuter] at h
    by_cases ho : outindex = 0
    · rw [if_pos ho] at h
      injection h with h2
      rw [← h2]
    · rw [if_neg ho] at h
      dsimp only at h
      rcases hp : pyread compressed (index - 1) with e | control
      · rw [hp] at h
        exact absurd h (by simp)
      · rw [hp] at h
        dsimp only at h
        rcases hin : blzInner compressed dsize pyread 8 control outindex (index - 1) dec
            with e | state
        · rw [hin] at h
          exact absurd h (by simp)
        · obtain ⟨o2, i3, d2⟩ := state
          rw [hin] at h
          dsimp only at h
          have hrec := ih _ _ _ _ h
          rw [hrec]
          exact blzInner_length _ _ _ _ _ _ _ _ _ _ _ hin

/-- C10: whenever `kip1_blz_decompress` returns normally and the trailer's
compressed-size plus additional-tail-size is non-zero, the output length is
the input length plus the trailer's declared additional uncompressed tail
size: the decode operates in place over a copy of the entire input
(including the 12-byte trailer) extended by that many zero bytes, and every
write is an in-place `set`. -/
theorem kip1_blz_length (c out : List Nat)
    (h : kip1_blz_decompress c = Except.ok out)
    (hnz : (blzTrailer c).1 + (blzTrailer c).2.2 ≠ 0) :
    out.length = c.length + (blzTrailer c).2.2 := by
  unfold kip1_blz_decompress kip1_blz_core at h
  split at h
  · exact absurd h (by simp)
  · rcases htr : blzTrailer c with ⟨cs, ii, addl⟩
    dsimp only at h hnz ⊢
    split at h
    · rename_i hc
      exact absurd hc hnz
    · have hlen := blzOuter_length c _ pyGet _ _ _ _ _ h
      rw [hlen]
      simp
      rw [htr]

/-- Witness for C10 at a concrete 16-byte input whose trailer declares
compressed size 4 and no additional tail (sum 4 is non-zero): the output has
the input's length. -/
theorem kip1_blz_length_witness :
    (kip1_blz_decompress [9, 8, 7, 0, 4, 0, 0, 0, 0, 0, 0, 0, 0, 0, 0, 0] =
      Except.ok [7, 0, 4, 0, 0, 0, 0, 0, 0, 0, 0, 0, 0, 9, 8, 7] ∧
      (blzTrailer [9, 8, 7, 0, 4, 0, 0, 0, 0, 0, 0, 0, 0, 0, 0, 0]).1 +
        (blzTrailer [9, 8, 7, 0, 4, 0, 0, 0, 0, 0, 0, 0, 0, 0, 0, 0]).2.2 ≠ 0) ∧
    ([7, 0, 4, 0, 0, 0, 0, 0, 0, 0, 0, 0, 0, 9, 8, 7] : List Nat).length =
      ([9, 8, 7, 0, 4, 0, 0, 0, 0, 0, 0, 0, 0, 0, 0, 0] : List Nat).length +
        (blzTrailer [9, 8, 7, 0, 4, 0, 0, 0, 0, 0, 0, 0, 0, 0, 0, 0]).2.2 :=
  ⟨⟨by decide, by decide⟩,
    kip1_blz_length [9, 8, 7, 0, 4, 0, 0, 0, 0, 0, 0, 0, 0, 0, 0, 0]
      [7, 0, 4, 0, 0, 0, 0, 0, 0, 0, 0, 0, 0, 9, 8, 7] (by decide) (by decide)⟩

/-- C3 counterexample: on this input the backward walk drives the input
cursor below zero (the control byte is fetched at index -1 and literal
bytes from deeper negative indices), yet the decoder returns normally —
Python's negative indexing silently wraps to the end of the buffer (the
trailing `1, 2, 3` of the output are wrapped reads of the input's first
bytes).  The spec-modelled decoder that fails on below-zero input accesses
errors on the same input, so the real code wraps instead of failing. -/
theorem kip1_blz_wrap_counterexample :
    kip1_blz_decompress [1, 2, 3, 0, 4, 0, 0, 0, 0, 0, 0, 0, 0, 0, 0, 0] =
      Except.ok [3, 0, 4, 0, 0, 0, 0, 0, 0, 0, 0, 0, 0, 1, 2, 3] ∧
    kip1_blz_decompressChecked [1, 2, 3, 0, 4, 0, 0, 0, 0, 0, 0, 0, 0, 0, 0, 0] =
      Except.error "Compression out of bounds!" := by
  decide

theorem pyGetStrict_le (l : List Nat) (i : Int) (b : Nat)
    (h : pyGetStrict l i = Except.ok b) : pyGet l i = Except.ok b := by
  unfold pyGetStrict at h
  split at h
  · exact absurd h (by simp)
  · exact h

/-- `blzInner` is monotone in the unchecked read function: any run that
succeeds with a stricter read succeeds identically with a weaker one. -/
theorem blzInner_mono (compressed : List Nat) (dsize : Nat)
    (p q : List Nat → Int → Except String Nat)
    (hpq : ∀ l i b, p l i = Except.ok b → q l i = Except.ok b) :
    ∀ (bits control outindex : Nat) (index : Int) (dec : List Nat)
      (res : Nat × Int × List Nat),
      blzInner compressed dsize p bits control outindex index dec = Except.ok res →
      blzInner compressed dsize q bits control outindex index dec = Except.ok res := by
  intro bits
  induction bits with
  | zero =>
    intro control outindex index dec res h
    simpa [blzInner] using h
  | succ bits ih =>
    intro control outindex index dec res h
    rw [blzInner] at h ⊢
    by_cases hc : control &&& 0x80 ≠ 0
    · rw [if_pos hc] at h ⊢
      by_cases hidx : index < 2
      · rw [if_pos hidx] at h
        exact absurd h (by simp)
      · rw [if_neg hidx] at h ⊢
        dsimp only at h ⊢
        rcases hp0 : p compressed (index - 2) with e | b0
        · rw [hp0] at h
          exact absurd h (by simp)
        · rcases hp1 : p compressed (index - 2 + 1) with e | b1
          · rw [hp0, hp1] at h
            exact absurd h (by simp)
          · rw [hp0, hp1] at h
            rw [hpq _ _ _ hp0, hpq _ _ _ hp1]
            dsimp only at h ⊢
            by_cases hsz : outindex < ((b0 ||| b1 <<< 8) >>> 12 &&& 15) + 3
            · rw [if_pos hsz] at h
              exact absurd h (by simp)
            · rw [if_neg hsz] at h ⊢
              rcases hcopy : blzCopy dsize (((b0 ||| b1 <<< 8) &&& 4095) + 2)
                  (((b0 ||| b1 <<< 8) >>> 12 &&& 15) + 3) outindex dec with e | state
              · rw [hcopy] at h
                exact absurd h (by simp)
              · obtain ⟨o2, d2⟩ := state
                rw [hcopy] at h
                dsimp only at h ⊢
                by_cases ho : o2 = 0
                · rw [if_pos ho] at h ⊢
                  exact h
                · rw [if_neg ho] at h ⊢
                  exact ih _ _ _ _ _ h
    · rw [if_neg hc] at h ⊢
      by_cases ho1 : outindex < 1
      · rw [if_pos ho1] at h
        exact absurd h (by simp)
      · rw [if_neg ho1] at h ⊢
        dsimp only at h ⊢
        rcases hp : p compressed (index - 1) with e | byte
        · rw [hp] at h
          exact absurd h (by simp)
        · rw [hp] at h
          rw [hpq _ _ _ hp]
          dsimp only at h ⊢
          by_cases ho : outindex - 1 = 0
          · rw [if_pos ho] at h ⊢
            exact h
          · rw [if_neg ho] at h ⊢
            exact ih _ _ _ _ _ h

theorem blzOuter_mono (compressed : List Nat) (dsize : Nat)
    (p q : List Nat → Int → Except String Nat)
    (hpq : ∀ l i b, p l i = Except.ok b → q l i = Except.ok b) :
    ∀ (fuel outindex : Nat) (index : Int) (dec out : List Nat),
      blzOuter compressed dsize p fuel outindex index dec = Except.ok out →
      blzOuter compressed dsize q fuel outindex index dec = Except.ok out := by
  intro fuel
  induction fuel with
  | zero =>
    intro outindex index dec out h
    exact absurd h (by simp [blzOuter])
  | succ fuel ih =>
    intro outindex index dec out h
    rw [blzOuter] at h ⊢
    by_cases ho : outindex = 0
    · rw [if_pos ho] at h ⊢
      exact h
    · rw [if_neg ho] at h ⊢
      dsimp only at h ⊢
      rcases hp : p compressed (index - 1) with e | control
      · rw [hp] at h
        exact absurd h (by simp)
      · rw [hp] at h
        rw [hpq _ _ _ hp]
        dsimp only at h ⊢
        rcases hin : blzInner compressed dsize p 8 control outindex (index - 1) dec
            with e | state
        · rw [hin] at h
          exact absurd h (by simp)
        · obtain ⟨o2, i3, d2⟩ := state
          rw [hin] at h
          rw [blzInner_mono compressed dsize p q hpq _ _ _ _ _ _ hin]
          dsimp only at h ⊢
          exact ih _ _ _ _ h

theorem blz_core_mono (p q : List Nat → Int → Except String Nat)
    (hpq : ∀ l i b, p l i = Except.ok b → q l i = Except.ok b)
    (c out : List Nat) (h : kip1_blz_core p c = Except.ok out) :
    kip1_blz_core q c = Except.ok out := by
  unfold kip1_blz_core at h ⊢
  by_cases hlen : c.length < 12
  · rw [if_pos hlen] at h
    exact absurd h (by simp)
  · rw [if_neg hlen] at h ⊢
    rcases htr : blzTrailer c with ⟨cs, ii, addl⟩
    rw [htr] at h
    dsimp only at h ⊢
    by_cases hz : cs + addl = 0
    · rw [if_pos hz] at h ⊢
      exact h
    · rw [if_neg hz] at h ⊢
      exact blzOuter_mono _ _ _ _ hpq _ _ _ _ _ h

/-- C3 (amended): the checked accesses fail universally with the corruption
error — a back-reference whose distance read would take the input cursor
below index 2, a back-reference run larger than the remaining output
(`outindex < segmentsize`), and a literal copy with no output remaining
(`outindex < 1`) each raise — but the control-byte and literal-byte input
reads are UNchecked: when the input cursor is in `[-len, -1]` there, the
read wraps to the end of the buffer (Python negative indexing, fully
characterized by the last conjunct) and decoding continues — every input
accepted by the spec-modelled checked decoder is accepted by the real
decoder with identical output, while the converse fails (see the
counterexample) — and a cursor below `-len` raises a plain IndexError, not
the corruption error. -/
theorem kip1_blz_bounds_behavior :
    (∀ (c out : List Nat), kip1_blz_decompressChecked c = Except.ok out →
      kip1_blz_decompress c = Except.ok out) ∧
    (∀ (compressed : List Nat) (dsize bits control outindex : Nat) (index : Int)
        (dec : List Nat) (pyread : List Nat → Int → Except String Nat),
      control &&& 0x80 ≠ 0 → index < 2 →
      blzInner compressed dsize pyread (bits + 1) control outindex index dec =
        Except.error "Compression out of bounds!") ∧
    (∀ (compressed : List Nat) (dsize bits control outindex : Nat) (index : Int)
        (dec : List Nat) (pyread : List Nat → Int → Except String Nat) (b0 b1 : Nat),
      control &&& 0x80 ≠ 0 → ¬index < 2 →
      pyread compressed (index - 2) = Except.ok b0 →
      pyread compressed (index - 2 + 1) = Except.ok b1 →
      outindex < ((b0 ||| b1 <<< 8) >>> 12 &&& 0xF) + 3 →
      blzInner compressed dsize pyread (bits + 1) control outindex index dec =
        Except.error "Compression out of bounds!") ∧
    (∀ (compressed : List Nat) (dsize bits control outindex : Nat) (index : Int)
        (dec : List Nat) (pyread : List Nat → Int → Except String Nat),
      control &&& 0x80 = 0 → outindex < 1 →
      blzInner compressed dsize pyread (bits + 1) control outindex index dec =
        Except.error "Compression out of bounds!") ∧
    (∀ (l : List Nat) (i : Int),
      (0 ≤ i → i < (l.length : Int) → pyGet l i = Except.ok (l.getD i.toNat 0)) ∧
      (-(l.length : Int) ≤ i → i < 0 →
        pyGet l i = Except.ok (l.getD ((l.length : Int) + i).toNat 0)) ∧
      ((i < -(l.length : Int) ∨ (l.length : Int) ≤ i) →
        pyGet l i = Except.error "IndexError: list index out of range")) := by
  refine ⟨?_, ?_, ?_, ?_, ?_⟩
  · intro c out h
    exact blz_core_mono pyGetStrict pyGet pyGetStrict_le c out h
  · intro compressed dsize bits control outindex index dec pyread hc hidx
    rw [blzInner, if_pos hc, if_pos hidx]
  · intro compressed dsize bits control outindex index dec pyread b0 b1 hc hidx hp0 hp1 hsz
    rw [blzInner, if_pos hc, if_neg hidx]
    dsimp only
    rw [hp0, hp1]
    dsimp only
    rw [if_pos hsz]
  · intro compressed dsize bits control outindex index dec pyread hc ho1
    rw [blzInner, if_neg (not_not_intro hc), if_pos ho1]
  · intro l i
    refine ⟨?_, ?_, ?_⟩
    · intro h0 hlt
      unfold pyGet
      dsimp only
      rw [if_neg (not_lt.mpr h0), if_pos ⟨h0, hlt⟩]
    · intro hge hlt
      unfold pyGet
      dsimp only
      rw [if_pos hlt, if_pos ⟨by omega, by omega⟩]
    · intro hout
      unfold pyGet
      dsimp only
      by_cases hi : i < 0
      · rw [if_pos hi, if_neg]
        rintro ⟨h1, h2⟩
        omega
      · rw [if_neg hi, if_neg]
        rintro ⟨h1, h2⟩
        omega

/-- Witness for C3's amended theorem: each conjunct applied at a concrete
input — an input the checked decoder accepts (the real decoder returns the
same bytes), the below-2 distance-read guard, the output-underflow guard of
a 3-byte run against 2 remaining output bytes, the no-output-left literal
guard, and the wrap/raise behavior of the element access at indices -1 and
-3 of a 2-element list. -/
theorem kip1_blz_bounds_behavior_witness :
    (kip1_blz_decompressChecked
        [0, 0, 0, 0, 0, 0, 0, 0, 0, 0, 0, 0, 0, 0, 0, 0, 0xFF, 1, 2, 3,
          32, 0, 0, 0, 6, 0, 0, 0, 0, 0, 0, 0] =
      Except.ok [1, 2, 3, 1, 2, 3, 1, 2, 3, 1, 2, 3, 1, 2, 3, 1, 2, 3, 1, 2,
          3, 1, 2, 3, 1, 2, 3, 32, 0, 0, 0, 6] ∧
      kip1_blz_decompress
        [0, 0, 0, 0, 0, 0, 0, 0, 0, 0, 0, 0, 0, 0, 0, 0, 0xFF, 1, 2, 3,
          32, 0, 0, 0, 6, 0, 0, 0, 0, 0, 0, 0] =
      Except.ok [1, 2, 3, 1, 2, 3, 1, 2, 3, 1, 2, 3, 1, 2, 3, 1, 2, 3, 1, 2,
          3, 1, 2, 3, 1, 2, 3, 32, 0, 0, 0, 6]) ∧
    blzInner [] 0 pyGet (0 + 1) 0x80 0 1 [] =
      Except.error "Compression out of bounds!" ∧
    blzInner [0, 0] 9 pyGet (0 + 1) 0x80 2 2 [0, 0] =
      Except.error "Compression out of bounds!" ∧
    blzInner [] 0 pyGet (0 + 1) 0 0 5 [] =
      Except.error "Compression out of bounds!" ∧
    (pyGet [7, 9] (-1) = Except.ok 9 ∧
      pyGet [7, 9] (-3) = Except.error "IndexError: list index out of range") :=
  ⟨⟨by decide,
    kip1_blz_bounds_behavior.1
      [0, 0, 0, 0, 0, 0, 0, 0, 0, 0, 0, 0, 0, 0, 0, 0, 0xFF, 1, 2, 3,
        32, 0, 0, 0, 6, 0, 0, 0, 0, 0, 0, 0]
      [1, 2, 3, 1, 2, 3, 1, 2, 3, 1, 2, 3, 1, 2, 3, 1, 2, 3, 1, 2, 3, 1, 2,
        3, 1, 2, 3, 32, 0, 0, 0, 6] (by decide)⟩,
    kip1_blz_bounds_behavior.2.1 [] 0 0 0x80 0 1 [] pyGet (by decide) (by decide),
    kip1_blz_bounds_behavior.2.2.1 [0, 0] 9 0 0x80 2 2 [0, 0] pyGet 0 0
      (by decide) (by decide) (by decide) (by decide) (by decide),
    kip1_blz_bounds_behavior.2.2.2.1 [] 0 0 0 0 5 [] pyGet (by decide) (by decide),
    (kip1_blz_bounds_behavior.2.2.2.2 [7, 9] (-1)).2.1 (by decide) (by decide),
    (kip1_blz_bounds_behavior.2.2.2.2 [7, 9] (-3)).2.2 (by decide)⟩

theorem dtLookup_nil (y : Nat) : dtLookup [] y = none := by
  simp [dtLookup]

theorem buildGot_lookup :
    ∀ (rs : List Reloc) (acc m : List (Nat × Nat)),
      buildGotValueLookup rs acc = Except.ok m →
      ((rs.filter relocQualifies).map Reloc.offset).Nodup →
      ∀ y v, dtLookup m y = some v ↔
        ((∃ r ∈ rs, relocQualifies r = true ∧ r.offset = y ∧ relocValue r = v) ∨
          ((∀ r ∈ rs, relocQualifies r = true → r.offset ≠ y) ∧
            dtLookup acc y = some v)) := by
  intro rs
  induction rs with
  | nil =>
    intro acc m h _ y v
    simp only [buildGotValueLookup, Except.ok.injEq] at h
    subst h
    simp
  | cons r rest ih =>
    intro acc m h hnodup y v
    rw [buildGotValueLookup] at h
    by_cases ht : r.r_type = 1025 ∨ r.r_type = 1026 ∨ r.r_type = 257
    · rw [if_pos ht] at h
      by_cases ha : r.addend = some 0
      · rw [if_pos ha] at h
        rcases hs : r.sym with _ | s
        · rw [hs] at h
          exact absurd h (by simp)
        · rw [hs] at h
          dsimp only at h
          by_cases hx : s.shndx ≠ 0
          · rw [if_pos hx] at h
            have hq : relocQualifies r = true := by
              simp [relocQualifies, ha, hs, hx]
              tauto
            have hval : relocValue r = s.value := by
              simp [relocValue, hs]
            have hfil : (r :: rest).filter relocQualifies =
                r :: rest.filter relocQualifies := by
              simp [List.filter_cons, hq]
            rw [hfil] at hnodup
            simp only [List.map_cons, List.nodup_cons] at hnodup
            obtain ⟨hnotin, hnodup'⟩ := hnodup
            have IH := ih _ _ h hnodup' y v
            rw [IH]
            by_cases hy : y = r.offset
            · subst hy
              rw [dtLookup_update_self]
              constructor
              · rintro (⟨r', hr', hq', ho', hv'⟩ | ⟨_, hv⟩)
                · exfalso
                  apply hnotin
                  rw [← ho']
                  exact List.mem_map_of_mem _ (List.mem_filter.mpr ⟨hr', hq'⟩)
                · injection hv with hv
                  exact Or.inl ⟨r, List.mem_cons_self _ _, hq, rfl, by rw [hval, hv]⟩
              · rintro (⟨r', hr', hq', ho', hv'⟩ | ⟨hall, hv⟩)
                · rcases List.mem_cons.mp hr' with rfl | hr''
                  · refine Or.inr ⟨?_, by rw [← hv', hval]⟩
                    intro r2 hr2 hq2 ho2
                    apply hnotin
                    rw [← ho2]
                    exact List.mem_map_of_mem _ (List.mem_filter.mpr ⟨hr2, hq2⟩)
                  · exfalso
                    apply hnotin
                    rw [← ho']
                    exact List.mem_map_of_mem _ (List.mem_filter.mpr ⟨hr'', hq'⟩)
                · exact absurd rfl (hall r (List.mem_cons_self _ _) hq)
            · rw [dtLookup_update_other _ _ _ _ hy]
              constructor
              · rintro (⟨r', hr', hq', ho', hv'⟩ | ⟨hall, hv⟩)
                · exact Or.inl ⟨r', List.mem_cons_of_mem _ hr', hq', ho', hv'⟩
                · refine Or.inr ⟨?_, hv⟩
                  intro r2 hr2 hq2
                  rcases List.mem_cons.mp hr2 with rfl | hr2'
                  · exact fun ho => hy ho.symm
                  · exact hall r2 hr2' hq2
              · rintro (⟨r', hr', hq', ho', hv'⟩ | ⟨hall, hv⟩)
                · rcases List.mem_cons.mp hr' with rfl | hr''
                  · exact absurd ho'.symm hy
                  · exact Or.inl ⟨r', hr'', hq', ho', hv'⟩
                · exact Or.inr ⟨fun r2 hr2 hq2 => hall r2 (List.mem_cons_of_mem _ hr2) hq2, hv⟩
          · rw [if_neg hx] at h
            have hq : relocQualifies r = false := by
              simp only [ne_eq, not_not] at hx
              simp [relocQualifies, hs, hx]
            have hfil : (r :: rest).filter relocQualifies = rest.filter relocQualifies := by
              simp [List.filter_cons, hq]
            rw [hfil] at hnodup
            have IH := ih _ _ h hnodup y v
            rw [IH]
            constructor
            · rintro (⟨r', hr', hq', ho', hv'⟩ | ⟨hall, hv⟩)
              · exact Or.inl ⟨r', List.mem_cons_of_mem _ hr', hq', ho', hv'⟩
              · refine Or.inr ⟨?_, hv⟩
                intro r2 hr2 hq2
                rcases List.mem_cons.mp hr2 with rfl | hr2'
                · rw [hq2] at hq
                  exact absurd hq (by simp)
                · exact hall r2 hr2' hq2
            · rintro (⟨r', hr', hq', ho', hv'⟩ | ⟨hall, hv⟩)
              · rcases List.mem_cons.mp hr' with rfl | hr''
                · rw [hq'] at hq
                  exact absurd hq (by simp)
                · exact Or.inl ⟨r', hr'', hq', ho', hv'⟩
              · exact Or.inr ⟨fun r2 hr2 hq2 => hall r2 (List.mem_cons_of_mem _ hr2) hq2, hv⟩
      · rw [if_neg ha] at h
        have hq : relocQualifies r = false := by
          simp [relocQualifies, ha]
        have hfil : (r :: rest).filter relocQualifies = rest.filter relocQualifies := by
          simp [List.filter_cons, hq]
        rw [hfil] at hnodup
        have IH := ih _ _ h hnodup y v
        rw [IH]
        constructor
        · rintro (⟨r', hr', hq', ho', hv'⟩ | ⟨hall, hv⟩)
          · exact Or.inl ⟨r', List.mem_cons_of_mem _ hr', hq', ho', hv'⟩
          · refine Or.inr ⟨?_, hv⟩
            intro r2 hr2 hq2
            rcases List.mem_cons.mp hr2 with rfl | hr2'
            · rw [hq2] at hq
              exact absurd hq (by simp)
            · exact hall r2 hr2' hq2
        · rintro (⟨r', hr', hq', ho', hv'⟩ | ⟨hall, hv⟩)
          · rcases List.mem_cons.mp hr' with rfl | hr''
            · rw [hq'] at hq
              exact absurd hq (by simp)
            · exact Or.inl ⟨r', hr'', hq', ho', hv'⟩
          · exact Or.inr ⟨fun r2 hr2 hq2 => hall r2 (List.mem_cons_of_mem _ hr2) hq2, hv⟩
    · rw [if_neg ht] at h
      have hq : relocQualifies r = false := by
        simp only [not_or] at ht
        simp [relocQualifies, ht.1, ht.2.1, ht.2.2]
      have hfil : (r :: rest).filter relocQualifies = rest.filter relocQualifies := by
        simp [List.filter_cons, hq]
      rw [hfil] at hnodup
      have IH := ih _ _ h hnodup y v
      rw [IH]
      constructor
      · rintro (⟨r', hr', hq', ho', hv'⟩ | ⟨hall, hv⟩)
        · exact Or.inl ⟨r', List.mem_cons_of_mem _ hr', hq', ho', hv'⟩
        · refine Or.inr ⟨?_, hv⟩
          intro r2 hr2 hq2
          rcases List.mem_cons.mp hr2 with rfl | hr2'
          · rw [hq2] at hq
            exact absurd hq (by simp)
          · exact hall r2 hr2' hq2
      · rintro (⟨r', hr', hq', ho', hv'⟩ | ⟨hall, hv⟩)
        · rcases List.mem_cons.mp hr' with rfl | hr''
          · rw [hq'] at hq
            exact absurd hq (by simp)
          · exact Or.inl ⟨r', hr'', hq', ho', hv'⟩
        · exact Or.inr ⟨fun r2 hr2 hq2 => hall r2 (List.mem_cons_of_mem _ hr2) hq2, hv⟩

theorem pltCache_lookup (got : List (Nat × Nat)) :
    ∀ (entries acc : List (Nat × Nat)),
      (entries.map Prod.fst).Nodup →
      ∀ stub v,
        dtLookup (entries.foldl
          (fun cache fe =>
            match dtLookup got fe.2 with
            | some v => dtUpdate cache fe.1 v
            | none => cache) acc) stub = some v ↔
        ((∃ t, (stub, t) ∈ entries ∧ dtLookup got t = some v) ∨
          ((∀ t, (stub, t) ∈ entries → dtLookup got t = none) ∧
            dtLookup acc stub = some v)) := by
  intro entries
  induction entries with
  | nil =>
    intro acc _ stub v
    simp
  | cons fe rest ih =>
    intro acc hnodup stub v
    obtain ⟨f, t0⟩ := fe
    simp only [List.map_cons, List.nodup_cons] at hnodup
    obtain ⟨hnotin, hnodup'⟩ := hnodup
    simp only [List.foldl_cons]
    rcases hg : dtLookup got t0 with _ | v0
    · dsimp only
      have IH := ih acc hnodup' stub v
      rw [IH]
      constructor
      · rintro (⟨t, htm, htv⟩ | ⟨hall, hv⟩)
        · exact Or.inl ⟨t, List.mem_cons_of_mem _ htm, htv⟩
        · refine Or.inr ⟨?_, hv⟩
          intro t htm
          rcases List.mem_cons.mp htm with heq | htm'
          · obtain ⟨rfl, rfl⟩ := Prod.mk.injEq .. ▸ And.intro (congrArg Prod.fst heq) (congrArg Prod.snd heq)
            exact hg
          · exact hall t htm'
      · rintro (⟨t, htm, htv⟩ | ⟨hall, hv⟩)
        · rcases List.mem_cons.mp htm with heq | htm'
          · have ht0 : t = t0 := congrArg Prod.snd heq
            rw [ht0, hg] at htv
            exact absurd htv (by simp)
          · exact Or.inl ⟨t, htm', htv⟩
        · exact Or.inr ⟨fun t htm => hall t (List.mem_cons_of_mem _ htm), hv⟩
    · dsimp only
      have IH := ih (dtUpdate acc f v0) hnodup' stub v
      rw [IH]
      by_cases hsf : stub = f
      · subst hsf
        rw [dtLookup_update_self]
        constructor
        · rintro (⟨t, htm, htv⟩ | ⟨hall, hv⟩)
          · exfalso
            apply hnotin
            exact List.mem_map_of_mem Prod.fst htm
          · injection hv with hv
            exact Or.inl ⟨t0, List.mem_cons_self _ _, by rw [hg, hv]⟩
        · rintro (⟨t, htm, htv⟩ | ⟨hall, hv⟩)
          · rcases List.mem_cons.mp htm with heq | htm'
            · have ht0 : t = t0 := congrArg Prod.snd heq
              subst ht0
              rw [hg] at htv
              injection htv with htv
              refine Or.inr ⟨?_, by rw [htv]⟩
              intro t2 htm2
              exfalso
              apply hnotin
              exact List.mem_map_of_mem Prod.fst htm2
            · exfalso
              apply hnotin
              exact List.mem_map_of_mem Prod.fst htm'
          · exact absurd (hall t0 (List.mem_cons_self _ _)) (by simp [hg])
      · rw [dtLookup_update_other _ _ _ _ hsf]
        constructor
        · rintro (⟨t, htm, htv⟩ | ⟨hall, hv⟩)
          · exact Or.inl ⟨t, List.mem_cons_of_mem _ htm, htv⟩
          · refine Or.inr ⟨?_, hv⟩
            intro t htm
            rcases List.mem_cons.mp htm with heq | htm'
            · exact absurd (congrArg Prod.fst heq) hsf
            · exact hall t htm'
        · rintro (⟨t, htm, htv⟩ | ⟨hall, hv⟩)
          · rcases List.mem_cons.mp htm with heq | htm'
            · exact absurd (congrArg Prod.fst heq) hsf
            · exact Or.inl ⟨t, htm', htv⟩
          · exact Or.inr ⟨fun t htm => hall t (List.mem_cons_of_mem _ htm), hv⟩

/-- C8: the PLT lookup cache maps exactly as claimed: `stub ↦ value` holds
iff some PLT entry `(stub, target)` exists whose target slot is patched by a
qualifying relocation — type GLOB_DAT (1025) / JUMP_SLOT (1026) / ABS64
(257), addend `some 0`, present symbol with non-zero section index — whose
symbol value is `value`; there are no other cache entries.  (Offsets of
qualifying relocations and stub addresses are assumed pairwise distinct, as
they are in a well-formed binary; duplicates would resolve by dict
overwrite.) -/
theorem plt_lookup_spec (relocations : List Reloc) (plt_entries : List (Nat × Nat))
    (cache : List (Nat × Nat))
    (hok : plt_lookup relocations plt_entries = Except.ok cache)
    (hnodup : ((relocations.filter relocQualifies).map Reloc.offset).Nodup)
    (hnodup2 : (plt_entries.map Prod.fst).Nodup) :
    ∀ stub v, dtLookup cache stub = some v ↔
      ∃ target, (stub, target) ∈ plt_entries ∧
        ∃ r ∈ relocations, relocQualifies r = true ∧ r.offset = target ∧
          relocValue r = v := by
  unfold plt_lookup at hok
  rcases hbg : buildGotValueLookup relocations [] with e | got
  · rw [hbg] at hok
    exact absurd hok (by simp)
  · rw [hbg] at hok
    dsimp only at hok
    injection hok with hcache
    intro stub v
    rw [← hcache]
    rw [pltCache_lookup got plt_entries [] hnodup2 stub v]
    have hgl := buildGot_lookup relocations [] got hbg hnodup
    constructor
    · rintro (⟨t, htm, htv⟩ | ⟨_, hv⟩)
      · rcases (hgl t v).mp htv with ⟨r, hr, hq, ho, hval⟩ | ⟨_, hv0⟩
        · exact ⟨t, htm, r, hr, hq, ho, hval⟩
        · rw [dtLookup_nil] at hv0
          exact absurd hv0 (by simp)
      · rw [dtLookup_nil] at hv
        exact absurd hv (by simp)
    · rintro ⟨t, htm, r, hr, hq, ho, hval⟩
      refine Or.inl ⟨t, htm, ?_⟩
      exact (hgl t v).mpr (Or.inl ⟨r, hr, hq, ho, hval⟩)

/-- Witness for C8 at the claim's example: one jump-slot relocation at
offset 0x2000 with addend 0 and a defined symbol of value 0x1000, plus the
PLT entry (0x100, 0x2000), gives the cache entry 0x100 ↦ 0x1000 and nothing
else. -/
theorem plt_lookup_spec_witness :
    (plt_lookup [⟨0x2000, 1026, some ⟨[], 1, 0x1000, 0, 0, 0, 0⟩, some 0⟩]
        [(0x100, 0x2000)] = Except.ok [(0x100, 0x1000)] ∧
      ((([⟨0x2000, 1026, some ⟨[], 1, 0x1000, 0, 0, 0, 0⟩, some 0⟩] : List Reloc).filter
        relocQualifies).map Reloc.offset).Nodup ∧
      (([((0x100 : Nat), (0x2000 : Nat))]).map Prod.fst).Nodup) ∧
    (∀ stub v, dtLookup [(0x100, 0x1000)] stub = some v ↔
      ∃ target, (stub, target) ∈ [((0x100 : Nat), (0x2000 : Nat))] ∧
        ∃ r ∈ [(⟨0x2000, 1026, some ⟨[], 1, 0x1000, 0, 0, 0, 0⟩, some 0⟩ : Reloc)],
          relocQualifies r = true ∧ r.offset = target ∧ relocValue r = v) :=
  ⟨⟨by decide, by decide, by decide⟩,
    plt_lookup_spec [⟨0x2000, 1026, some ⟨[], 1, 0x1000, 0, 0, 0, 0⟩, some 0⟩]
      [(0x100, 0x2000)] [(0x100, 0x1000)] (by decide) (by decide) (by decide)⟩
